import Mathlib

/-!
# scrape-confluence: the fetch, sanitize, write pipeline of `main.go`

A shallow embedding of `src/main.go`.  Go strings are character lists.  The
file system and the trace of what `main` does are explicit values that the
functions take and return; the remote wiki, `git` and the clock are an
environment they read; the unbounded loop of `main` runs on fuel.

The library calls the program makes are embedded under the names Go gives
them: `strings.TrimPrefix`, `filepath.Join`, `filepath.Clean`, `filepath.Dir`,
`os.MkdirAll` and `os.WriteFile` by their behaviour on Unix, the builder calls
and the sanitizing loop of bluemonday by what the library does for the
switches `main.go` sets.  The pool of `handleListResponse` runs its tasks one
after the other, in the order of the results.

Definitions come first, lemmas and the theorems of the claims after them.
-/

namespace ScrapeConfluence

/-- Go strings.  Only ASCII bytes (`/`, `.`, the `https://` scheme) are ever
inspected by the program, and no ASCII byte occurs inside a multi-byte UTF-8
sequence, so a list of characters behaves as the byte string does. -/
abbrev Str := List Char

/-! ## The data model (`main.go`, lines 171-208) -/

/-- The Go struct `ResultLinks`. -/
structure ResultLinks where
  Self : Str
  Tinyui : Str
  Editui : Str
  Webui : Str
deriving DecidableEq

/-- The Go struct `ListResult` (the field `Type` is spelled `Typ`, `Type` being
reserved). -/
structure ListResult where
  ID : Str
  Typ : Str
  Status : Str
  Title : Str
  Links : ResultLinks
deriving DecidableEq

/-- The Go struct `ListLinks`. -/
structure ListLinks where
  Base : Str
  Context : Str
  Next : Str
  Self : Str
deriving DecidableEq

/-- The Go struct `ListContentResponse`. -/
structure ListContentResponse where
  Links : ListLinks
  Limit : Int
  Size : Int
  Start : Int
  Results : List ListResult
deriving DecidableEq

/-- The Go struct `FetchContentResponse`, flattened: the one value it carries
is `Body.ExportView.Value`. -/
structure FetchContentResponse where
  Value : Str
deriving DecidableEq

/-! ## Path derivation (`writePage`, line 119) -/

namespace strings

/-- Go `strings.HasPrefix`. -/
def HasPrefix (s pre : Str) : Bool := pre.isPrefixOf s

/-- Go `strings.TrimPrefix`: `s` without the leading `pre` when it has it, `s`
itself otherwise. -/
def TrimPrefix (s pre : Str) : Str :=
  if HasPrefix s pre then s.drop pre.length else s

end strings

namespace filepath

/-- The elements of a path: the pieces between separators (`"a//b/"` has the
elements `a`, the empty one, `b` and the empty one). -/
def splitSlash : Str → List Str
  | [] => [[]]
  | c :: cs =>
    if c = '/' then [] :: splitSlash cs
    else
      match splitSlash cs with
      | [] => [[c]]
      | e :: es => (c :: e) :: es

/-- Elements written back with one separator between neighbours. -/
def joinSlash : List Str → Str
  | [] => []
  | [e] => e
  | e :: es => e ++ '/' :: joinSlash es

/-- The output buffer of Go's `filepath.Clean` while it scans a path: the
number of leading `..` elements it had to keep (the prefix the index `dotdot`
protects; always zero for a rooted path) and the ordinary elements written
after them, last first. -/
structure Lazybuf where
  dotdots : Nat
  elems : List Str
deriving DecidableEq

/-- One round of the scanning loop of `filepath.Clean`, on the element `e`:
an empty element and `.` are skipped; `..` removes the last ordinary element
when there is one, is kept when the path is not rooted, and is dropped at the
root; any other element is appended. -/
def cleanStep (rooted : Bool) (out : Lazybuf) (e : Str) : Lazybuf :=
  if e = [] then out
  else if e = ['.'] then out
  else if e = ['.', '.'] then
    match out.elems with
    | _ :: rest => { out with elems := rest }
    | [] => if rooted then out else { out with dotdots := out.dotdots + 1 }
  else { out with elems := e :: out.elems }

/-- What the buffer holds when the scan ends: the root separator of a rooted
path, then the elements, one separator between neighbours; `.` when an
unrooted path has nothing left. -/
def render (rooted : Bool) (out : Lazybuf) : Str :=
  if rooted then '/' :: joinSlash out.elems.reverse
  else if List.replicate out.dotdots ['.', '.'] ++ out.elems.reverse = [] then ['.']
  else joinSlash (List.replicate out.dotdots ['.', '.'] ++ out.elems.reverse)

/-- Whether a path starts at the root. -/
def isRooted (path : Str) : Bool := path.head? = some '/'

/-- The buffer after the whole path has been scanned. -/
def scan (path : Str) : Lazybuf :=
  (splitSlash path).foldl (cleanStep (isRooted path)) ⟨0, []⟩

/-- Go `filepath.Clean` on Unix: the shortest path equivalent to `path` by
purely lexical processing (multiple separators become one, `.` elements go,
an inner `..` goes together with the element before it, `..` at the root
goes, and the empty path becomes `.`). -/
def Clean (path : Str) : Str :=
  if path = [] then ['.'] else render (isRooted path) (scan path)

/-- Go `filepath.Join` of two elements, as `writePage` calls it: leading empty
elements are ignored, the rest is joined with the separator and cleaned. -/
def Join (a b : Str) : Str :=
  if a ≠ [] then Clean (a ++ '/' :: b)
  else if b ≠ [] then Clean b
  else []

/-- The path up to and including its last separator. -/
def upToLastSlash (path : Str) : Str :=
  (path.reverse.dropWhile (fun c => c ≠ '/')).reverse

/-- Go `filepath.Dir` on Unix: the path without its last element, cleaned. -/
def Dir (path : Str) : Str := Clean (upToLastSlash path)

/-- An ordinary element: not empty, not `.`, not `..`. -/
def isOrdinary (e : Str) : Bool := e ≠ [] && e ≠ ['.'] && e ≠ ['.', '.']

/-- A path all of whose elements are ordinary: elements separated by single
separators, no leading or trailing separator, no `.` and no `..`. -/
def isPlain (path : Str) : Bool := (splitSlash path).all isOrdinary

/-- A clean absolute directory other than the root, such as
`/tmp/confluence_dump`. -/
def isCleanAbs (dir : Str) : Bool :=
  isRooted dir && Clean dir == dir && dir != ['/']

/-- Whether some element of the path is `..`. -/
def hasDotDot (path : Str) : Bool := (splitSlash path).contains ['.', '.']

/-- Whether the path has an ordinary element at all. -/
def hasOrdinary (path : Str) : Bool := (splitSlash path).any isOrdinary

/-- Whether `path` names something below the directory `dir`: it is `dir`, a
separator, and then ordinary elements only. -/
def liesInside (dir path : Str) : Bool :=
  (dir ++ ['/']).isPrefixOf path && isPlain (path.drop (dir.length + 1))

end filepath

/-- The scheme `writePage` strips. -/
def httpsScheme : Str := "https://".toList

/-- The suffix `writePage` appends. -/
def htmlSuffix : Str := ".html".toList

/-- The link `writePage` joins to the output directory:
`strings.TrimPrefix(baseURL+result.Links.Webui, "https://")`. -/
def strippedLink (baseURL : Str) (result : ListResult) : Str :=
  strings.TrimPrefix (baseURL ++ result.Links.Webui) httpsScheme

/-- The file path of `writePage` (line 119):
`filepath.Join(gitDir, strings.TrimPrefix(baseURL+result.Links.Webui, "https://")) + ".html"`. -/
def pagePath (gitDir baseURL : Str) (result : ListResult) : Str :=
  filepath.Join gitDir (strippedLink baseURL result) ++ htmlSuffix

/-- The path as the specification writes it, by plain concatenation:
`outputDir + strip("https://", baseURL + webuiLink) + ".html"`. -/
def concatPath (gitDir baseURL : Str) (result : ListResult) : Str :=
  gitDir ++ strippedLink baseURL result ++ htmlSuffix

/-- A page descriptor with the given web-UI link and self link (the other
fields empty). -/
def descriptor (self webui : Str) : ListResult :=
  ⟨[], [], [], [], ⟨self, [], [], webui⟩⟩

/-! ## The sanitizer (`policy` and `sanitizeHTML`, lines 152-169)

`sanitizeHTML` is `gohtml.Format(policy.Sanitize(input))`.  The policy is
built in `main.go`; what its builder calls put into it, and the loop of
`Sanitize` that consults it, are embedded from bluemonday (`helpers.go`,
`policy.go`, `sanitize.go`).  Switches of a bluemonday policy that `main.go`
never turns on (comments, added spaces, data attributes, style policies,
`noreferrer`, `target`, element-name patterns) keep their `NewPolicy` value,
and the branches they guard are left out.  The HTML tokenizer, the regular
expression engine, `net/url` and `gohtml.Format` are parameters. -/

namespace html

/-- The token types of `golang.org/x/net/html`. -/
inductive TokenType where
  | TextToken
  | StartTagToken
  | EndTagToken
  | SelfClosingTagToken
  | CommentToken
  | DoctypeToken
deriving DecidableEq

/-- An attribute of a tag (`html.Attribute`, without the namespace). -/
structure Attribute where
  Key : Str
  Val : Str
deriving DecidableEq

/-- A token (`html.Token`; the field `Type` is spelled `Typ`). -/
structure Token where
  Typ : TokenType
  Data : Str
  Attr : List Attribute
deriving DecidableEq

/-- The double quote. -/
def dquote : Char := Char.ofNat 34

/-- The escape of one character in `html.EscapeString`. -/
def escapeChar (c : Char) : Str :=
  if c = '&' then "&amp;".toList
  else if c = Char.ofNat 39 then "&#39;".toList
  else if c = '<' then "&lt;".toList
  else if c = '>' then "&gt;".toList
  else if c = dquote then "&#34;".toList
  else if c = '\r' then "&#13;".toList
  else [c]

/-- The `html.EscapeString` of a text. -/
def EscapeString (s : Str) : Str := (s.map escapeChar).flatten

/-- One attribute inside a tag: a blank, the key, `=`, the quoted value. -/
def attrString (a : Attribute) : Str :=
  ' ' :: a.Key ++ '=' :: dquote :: EscapeString a.Val ++ [dquote]

/-- The name and attributes of a tag (`Token.tagString`). -/
def tagString (t : Token) : Str := t.Data ++ (t.Attr.map attrString).flatten

/-- The text of a token (`Token.String`). -/
def Token.String (t : Token) : Str :=
  match t.Typ with
  | .TextToken => EscapeString t.Data
  | .StartTagToken => '<' :: tagString t ++ ['>']
  | .EndTagToken => '<' :: '/' :: tagString t ++ ['>']
  | .SelfClosingTagToken => '<' :: tagString t ++ ['/', '>']
  | .CommentToken => "<!--".toList ++ t.Data ++ "-->".toList
  | .DoctypeToken => "<!DOCTYPE ".toList ++ t.Data ++ ['>']

/-- A start tag. -/
def startTag (name : Str) (attrs : List Attribute) : Token := ⟨.StartTagToken, name, attrs⟩

/-- An end tag. -/
def endTag (name : Str) : Token := ⟨.EndTagToken, name, []⟩

/-- A text token. -/
def text (data : Str) : Token := ⟨.TextToken, data, []⟩

end html

namespace url

/-- What bluemonday reads from a parsed URL (`net/url.URL`): its scheme and
its text (`u.String()`). -/
structure URL where
  Scheme : Str
  text : Str
deriving DecidableEq

end url

namespace bluemonday

/-- The regular expressions bluemonday's helpers attach to attributes. -/
inductive Pattern where
  | Direction
  | Lang
  | Id
  | Paragraph
  | ListType
  | Integer
  | NumberOrPercent
  | CellAlign
  | CellVerticalAlign
  | SpaceSeparatedTokens
  | Scope
  | Nowrap
  | ImageAlign
deriving DecidableEq

/-- The third-party code below the sanitizer, taken as given: the tokenizer of
`golang.org/x/net/html`, `regexp.MatchString` on the helper patterns,
`url.Parse` after bluemonday's trimming and white-space check (`none` when the
value is refused there), and `gohtml.Format`. -/
structure Lib where
  tokenize : Str → List html.Token
  matchString : Pattern → Str → Bool
  parseURL : Str → Option url.URL
  Format : Str → Str

/-- An attribute policy (`attrPolicy`): the pattern a value has to match, if
any. -/
structure attrPolicy where
  regexp : Option Pattern
deriving DecidableEq

/-- A bluemonday policy.  The map `elsAndAttrs` is kept as its key set
`elements` and the triples `attrs` (element, attribute, policy) in the order
they were added. -/
structure Policy where
  elements : List Str
  attrs : List (Str × Str × attrPolicy)
  globalAttrs : List (Str × attrPolicy)
  allowURLSchemes : List Str
  requireParseableURLs : Bool
  allowRelativeURLs : Bool
  requireNoFollow : Bool
  allowUnsafe : Bool
  setOfElementsAllowedWithoutAttrs : List Str
  setOfElementsToSkipContent : List Str

/-- The elements bluemonday lets pass without any attribute
(`addDefaultElementsWithoutAttrs`). -/
def defaultElementsWithoutAttrs : List Str :=
  ["abbr", "acronym", "address", "article", "aside", "audio", "b", "bdi", "blockquote",
   "body", "br", "button", "canvas", "caption", "center", "cite", "code", "col", "colgroup",
   "datalist", "dd", "del", "details", "dfn", "div", "dl", "dt", "em", "fieldset",
   "figcaption", "figure", "footer", "h1", "h2", "h3", "h4", "h5", "h6", "head", "header",
   "hgroup", "hr", "html", "i", "ins", "kbd", "li", "mark", "marquee", "nav", "ol",
   "optgroup", "option", "p", "picture", "pre",
   "q", "rp", "rt", "ruby", "s", "samp", "script",
   "section", "select", "small", "span", "strike", "strong", "style", "sub", "summary",
   "sup", "svg", "table", "tbody", "td", "textarea", "tfoot", "th", "thead", "title",
   "time", "tr", "tt", "u", "ul", "var", "video", "wbr"].map String.toList

/-- The elements whose content goes with them (`addDefaultSkipElementContent`). -/
def defaultSkipElementContent : List Str :=
  ["frame", "frameset", "iframe", "noembed", "noframes", "noscript", "nostyle", "object",
   "script", "style", "title"].map String.toList

/-- The empty policy of `bluemonday.NewPolicy()`. -/
def NewPolicy : Policy :=
  { elements := [], attrs := [], globalAttrs := [], allowURLSchemes := [],
    requireParseableURLs := false, allowRelativeURLs := false, requireNoFollow := false,
    allowUnsafe := false,
    setOfElementsAllowedWithoutAttrs := defaultElementsWithoutAttrs,
    setOfElementsToSkipContent := defaultSkipElementContent }

/-- `p.AllowElements(names...)`. -/
def Policy.AllowElements (p : Policy) (names : List String) : Policy :=
  { p with elements := p.elements ++ names.map String.toList }

/-- `p.AllowAttrs(attrNames...).Matching(regexp).OnElements(elements...)`
(`.Matching` left out when `regexp` is `none`). -/
def Policy.AllowAttrsOnElements (p : Policy) (attrNames : List String) (regexp : Option Pattern)
    (elements : List String) : Policy :=
  { p with
    elements := p.elements ++ elements.map String.toList
    attrs := p.attrs ++ (elements.map fun el =>
      attrNames.map fun a => (el.toList, a.toList, (⟨regexp⟩ : attrPolicy))).flatten }

/-- `p.AllowAttrs(attrNames...).Matching(regexp).Globally()`. -/
def Policy.AllowAttrsGlobally (p : Policy) (attrNames : List String) (regexp : Option Pattern) :
    Policy :=
  { p with globalAttrs := p.globalAttrs ++ attrNames.map fun a => (a.toList, ⟨regexp⟩) }

/-- `p.AllowStandardAttributes()`: `dir`, `lang`, `id` and `title` on every
allowed element. -/
def Policy.AllowStandardAttributes (p : Policy) : Policy :=
  (((p.AllowAttrsGlobally ["dir"] (some .Direction)).AllowAttrsGlobally ["lang"] (some .Lang)
    ).AllowAttrsGlobally ["id"] (some .Id)).AllowAttrsGlobally ["title"] (some .Paragraph)

/-- `p.AllowStandardURLs()`: URLs have to parse, relative ones pass, the
schemes are `mailto`, `http` and `https`, and links get `rel="nofollow"`. -/
def Policy.AllowStandardURLs (p : Policy) : Policy :=
  { p with
    requireParseableURLs := true
    allowRelativeURLs := true
    allowURLSchemes := p.allowURLSchemes ++ ["mailto", "http", "https"].map String.toList
    requireNoFollow := true }

/-- `p.AllowLists()`. -/
def Policy.AllowLists (p : Policy) : Policy :=
  (((p.AllowAttrsOnElements ["type"] (some .ListType) ["ol", "ul"]
    ).AllowAttrsOnElements ["type"] (some .ListType) ["li"]
    ).AllowAttrsOnElements ["value"] (some .Integer) ["li"]
    ).AllowElements ["dl", "dt", "dd"]

/-- `p.AllowTables()`. -/
def Policy.AllowTables (p : Policy) : Policy :=
  ((((((((((((((((((p.AllowAttrsOnElements ["height", "width"] (some .NumberOrPercent) ["table"]
    ).AllowAttrsOnElements ["summary"] (some .Paragraph) ["table"]
    ).AllowElements ["caption"]
    ).AllowAttrsOnElements ["align"] (some .CellAlign) ["col", "colgroup"]
    ).AllowAttrsOnElements ["height", "width"] (some .NumberOrPercent) ["col", "colgroup"]
    ).AllowAttrsOnElements ["span"] (some .Integer) ["colgroup", "col"]
    ).AllowAttrsOnElements ["valign"] (some .CellVerticalAlign) ["col", "colgroup"]
    ).AllowAttrsOnElements ["align"] (some .CellAlign) ["thead", "tr"]
    ).AllowAttrsOnElements ["valign"] (some .CellVerticalAlign) ["thead", "tr"]
    ).AllowAttrsOnElements ["abbr"] (some .Paragraph) ["td", "th"]
    ).AllowAttrsOnElements ["align"] (some .CellAlign) ["td", "th"]
    ).AllowAttrsOnElements ["colspan", "rowspan"] (some .Integer) ["td", "th"]
    ).AllowAttrsOnElements ["headers"] (some .SpaceSeparatedTokens) ["td", "th"]
    ).AllowAttrsOnElements ["height", "width"] (some .NumberOrPercent) ["td", "th"]
    ).AllowAttrsOnElements ["scope"] (some .Scope) ["td", "th"]
    ).AllowAttrsOnElements ["valign"] (some .CellVerticalAlign) ["td", "th"]
    ).AllowAttrsOnElements ["nowrap"] (some .Nowrap) ["td", "th"]
    ).AllowAttrsOnElements ["align"] (some .CellAlign) ["tbody", "tfoot"]
    ).AllowAttrsOnElements ["valign"] (some .CellVerticalAlign) ["tbody", "tfoot"]

/-- `p.AllowImages()`. -/
def Policy.AllowImages (p : Policy) : Policy :=
  ((((p.AllowAttrsOnElements ["align"] (some .ImageAlign) ["img"]
    ).AllowAttrsOnElements ["alt"] (some .Paragraph) ["img"]
    ).AllowAttrsOnElements ["height", "width"] (some .NumberOrPercent) ["img"]
    ).AllowStandardURLs
    ).AllowAttrsOnElements ["src"] none ["img"]

end bluemonday

/-- The policy of `main.go` (lines 152-165).  The value of the first call,
`bluemonday.UGCPolicy()`, is discarded there: the policy starts from
`bluemonday.NewPolicy()`. -/
def policy : bluemonday.Policy :=
  let p := bluemonday.NewPolicy
  let p := p.AllowStandardAttributes
  let p := p.AllowStandardURLs
  let p := p.AllowLists
  let p := p.AllowTables
  let p := p.AllowImages
  let p := p.AllowElements ["section"]
  let p := p.AllowElements ["summary"]
  let p := p.AllowElements ["h1", "h2", "h3", "h4", "h5", "h6"]
  let p := p.AllowAttrsOnElements ["href"] none ["a"]
  p

namespace unicode

/-- Go `unicode.IsSpace`: the white space of Latin-1 (tab, line feed, vertical
tab, form feed, carriage return, blank, U+0085, U+00A0) and the characters of
category Z and property Pattern_White_Space beyond it. -/
def IsSpace (c : Char) : Bool :=
  let n := c.toNat
  (9 ≤ n && n ≤ 13) || n = 32 || n = 133 || n = 160 || n = 5760
    || (8192 ≤ n && n ≤ 8202) || n = 8232 || n = 8233 || n = 8239 || n = 8287 || n = 12288

end unicode

namespace strings

/-- Go `strings.Contains`. -/
def Contains (s substr : Str) : Bool := s.tails.any fun t => substr.isPrefixOf t

/-- Whether `strings.TrimSpace` leaves nothing of the string. -/
def isBlank (s : Str) : Bool := s.all unicode.IsSpace

/-- The string without its blanks, tabs, carriage returns and line feeds (the
white space a formatter puts between tags). -/
def nonSpace (s : Str) : Str := s.filter fun c => !c.isWhitespace

end strings

namespace bluemonday

/-- `p.validURL(rawurl)`: with `requireParseableURLs` the value has to parse;
a URL with a scheme passes when the scheme is allowed, one without when
relative URLs are allowed and the URL is not empty.  The value that passes is
rewritten to the text of the parsed URL. -/
def Policy.validURL (lib : Lib) (p : Policy) (rawurl : Str) : Option Str :=
  if p.requireParseableURLs then
    match lib.parseURL rawurl with
    | none => none
    | some u =>
      if u.Scheme ≠ [] then
        if p.allowURLSchemes.contains u.Scheme then some u.text else none
      else if p.allowRelativeURLs then
        if u.text ≠ [] then some u.text else none
      else none
  else some rawurl

/-- Whether a value is let through by a list of attribute policies: by one
without a pattern, or by one whose pattern matches. -/
def passes (lib : Lib) (aps : List attrPolicy) (val : Str) : Bool :=
  aps.any fun ap =>
    match ap.regexp with
    | some re => lib.matchString re val
    | none => true

/-- The policies of an attribute on an element: `p.elsAndAttrs[el][key]`. -/
def Policy.attrPolicies (p : Policy) (el key : Str) : List attrPolicy :=
  (p.attrs.filter fun t => t.1 = el ∧ t.2.1 = key).map fun t => t.2.2

/-- The global policies of an attribute: `p.globalAttrs[key]`. -/
def Policy.globalPolicies (p : Policy) (key : Str) : List attrPolicy :=
  (p.globalAttrs.filter fun t => t.1 = key).map fun t => t.2

/-- The first loop of `sanitizeAttrs`: an attribute stays when an
element-specific policy or else a global policy lets its value through. -/
def Policy.keepAttr (lib : Lib) (p : Policy) (el : Str) (a : html.Attribute) : Bool :=
  passes lib (p.attrPolicies el a.Key) a.Val || passes lib (p.globalPolicies a.Key) a.Val

/-- The attribute that holds the URL of a linkable element. -/
def urlAttrOf (el : Str) : Option Str :=
  if el ∈ ["a", "area", "base", "link"].map String.toList then some "href".toList
  else if el ∈ ["blockquote", "del", "ins", "q"].map String.toList then some "cite".toList
  else if el ∈ ["audio", "embed", "iframe", "img", "script", "track", "video"].map
      String.toList then some "src".toList
  else none

/-- The URL check of `sanitizeAttrs` on a linkable element: the URL attribute
is dropped when `validURL` refuses its value and rewritten otherwise. -/
def Policy.checkURLs (lib : Lib) (p : Policy) (el : Str) (attrs : List html.Attribute) :
    List html.Attribute :=
  match urlAttrOf el with
  | none => attrs
  | some k =>
    attrs.filterMap fun a =>
      if a.Key = k then
        match p.validURL lib a.Val with
        | some u => some { a with Val := u }
        | none => none
      else some a

/-- The `rel` attribute. -/
def relAttr : html.Attribute := ⟨"rel".toList, "nofollow".toList⟩

/-- The `nofollow` step of `sanitizeAttrs` for a link with an `href`: a `rel`
attribute that is there gets ` nofollow` appended unless it has it, and
`rel="nofollow"` is added when there is none. -/
def addNoFollow (attrs : List html.Attribute) : List html.Attribute :=
  if attrs.any (fun a => a.Key = "rel".toList) then
    attrs.map fun a =>
      if a.Key = "rel".toList ∧ strings.Contains a.Val "nofollow".toList = false then
        { a with Val := a.Val ++ " nofollow".toList }
      else a
  else attrs ++ [relAttr]

/-- `p.sanitizeAttrs(elementName, attrs, aps)`. -/
def Policy.sanitizeAttrs (lib : Lib) (p : Policy) (elementName : Str)
    (attrs : List html.Attribute) : List html.Attribute :=
  if attrs = [] then attrs
  else
    let cleanAttrs := attrs.filter (p.keepAttr lib elementName)
    if cleanAttrs = [] then cleanAttrs
    else
      let cleanAttrs :=
        if p.requireParseableURLs then p.checkURLs lib elementName cleanAttrs else cleanAttrs
      if p.requireNoFollow ∧ cleanAttrs ≠ []
          ∧ elementName ∈ ["a", "area", "base", "link"].map String.toList
          ∧ cleanAttrs.any (fun a => a.Key = "href".toList) then
        addNoFollow cleanAttrs
      else cleanAttrs

/-- `p.allowNoAttrs(elementName)`. -/
def Policy.allowNoAttrs (p : Policy) (elementName : Str) : Bool :=
  p.setOfElementsAllowedWithoutAttrs.contains elementName

/-- The local variables of the loop of `sanitize`. -/
structure State where
  buff : Str
  skipElementContent : Bool
  skippingElementsCount : Int
  skipClosingTag : Bool
  closingTagToSkipStack : List Str
  mostRecentlyStartedToken : Str

/-- Whether the element is `script` or `style`. -/
def isScriptOrStyle (name : Str) : Bool := name = "script".toList || name = "style".toList

/-- One round of the loop of `sanitize`, on one token.  The stack
`closingTagToSkipStack` is kept with its top first. -/
def Policy.step (lib : Lib) (p : Policy) (st : State) (token : html.Token) : State :=
  match token.Typ with
  | .DoctypeToken => st
  | .CommentToken => st
  | .StartTagToken =>
    let st := { st with mostRecentlyStartedToken := token.Data }
    if isScriptOrStyle token.Data ∧ p.allowUnsafe = false then st
    else if ¬ token.Data ∈ p.elements then
      if token.Data ∈ p.setOfElementsToSkipContent then
        { st with skipElementContent := true,
                  skippingElementsCount := st.skippingElementsCount + 1 }
      else st
    else
      let attr := if token.Attr ≠ [] then p.sanitizeAttrs lib token.Data token.Attr
        else token.Attr
      if attr = [] ∧ p.allowNoAttrs token.Data = false then
        { st with skipClosingTag := true,
                  closingTagToSkipStack := token.Data :: st.closingTagToSkipStack }
      else if st.skipElementContent = false then
        { st with buff := st.buff ++ ({ token with Attr := attr } : html.Token).String }
      else st
  | .EndTagToken =>
    let st :=
      if st.mostRecentlyStartedToken = token.Data then { st with mostRecentlyStartedToken := [] }
      else st
    if isScriptOrStyle token.Data ∧ p.allowUnsafe = false then st
    else if st.skipClosingTag = true ∧ st.closingTagToSkipStack.head? = some token.Data then
      { st with closingTagToSkipStack := st.closingTagToSkipStack.tail,
                skipClosingTag := !st.closingTagToSkipStack.tail.isEmpty }
    else if ¬ token.Data ∈ p.elements then
      if token.Data ∈ p.setOfElementsToSkipContent then
        { st with skippingElementsCount := st.skippingElementsCount - 1,
                  skipElementContent :=
                    if st.skippingElementsCount - 1 = 0 then false else st.skipElementContent }
      else st
    else if st.skipElementContent = false then
      { st with buff := st.buff ++ token.String }
    else st
  | .SelfClosingTagToken =>
    if isScriptOrStyle token.Data ∧ p.allowUnsafe = false then st
    else if ¬ token.Data ∈ p.elements then st
    else
      let attr := if token.Attr ≠ [] then p.sanitizeAttrs lib token.Data token.Attr
        else token.Attr
      if attr = [] ∧ p.allowNoAttrs token.Data = false then st
      else if st.skipElementContent = false then
        { st with buff := st.buff ++ ({ token with Attr := attr } : html.Token).String }
      else st
  | .TextToken =>
    if st.skipElementContent = false then
      if isScriptOrStyle st.mostRecentlyStartedToken then
        if p.allowUnsafe then { st with buff := st.buff ++ token.Data } else st
      else { st with buff := st.buff ++ token.String }
    else st

/-- The loop of `sanitize` over a token stream; the result is the buffer. -/
def Policy.sanitizeTokens (lib : Lib) (p : Policy) (tokens : List html.Token) : Str :=
  (tokens.foldl (p.step lib) ⟨[], false, 0, false, [], []⟩).buff

/-- `p.Sanitize(s)`: a blank string is returned as it is, any other is
tokenized and sanitized. -/
def Policy.Sanitize (lib : Lib) (p : Policy) (s : Str) : Str :=
  if strings.isBlank s then s else p.sanitizeTokens lib (lib.tokenize s)

end bluemonday

/-- The function `sanitizeHTML` (line 167):
`gohtml.Format(policy.Sanitize(input))`. -/
def sanitizeHTML (lib : bluemonday.Lib) (input : Str) : Str :=
  lib.Format (policy.Sanitize lib input)

/-- The input `<script>alert(1)</script><p>hi</p>`. -/
def scriptAndParagraph : Str := "<script>alert(1)</script><p>hi</p>".toList

/-- The tokens of `<script>alert(1)</script><p>hi</p>`. -/
def scriptAndParagraphTokens : List html.Token :=
  [html.startTag "script".toList [], html.text "alert(1)".toList, html.endTag "script".toList,
   html.startTag "p".toList [], html.text "hi".toList, html.endTag "p".toList]

/-- The attributes of the anchor `<a href="http://x" onclick="evil()">`. -/
def anchorAttrs : List html.Attribute :=
  [⟨"href".toList, "http://x".toList⟩, ⟨"onclick".toList, "evil()".toList⟩]

/-- The input `<a href="http://x" onclick="evil()">link</a>`. -/
def anchorInput : Str :=
  "<a href=".toList ++ html.dquote :: "http://x".toList ++ html.dquote
    :: " onclick=".toList ++ html.dquote :: "evil()".toList ++ html.dquote
    :: ">link</a>".toList

/-- The tokens of `<a href="http://x" onclick="evil()">link</a>`. -/
def anchorTokens : List html.Token :=
  [html.startTag "a".toList anchorAttrs, html.text "link".toList, html.endTag "a".toList]

/-- A stand-in for the third-party code with which the definitions can be run
on the two inputs above: it hands out the given tokens for every input, lets
every pattern match, reads a URL as its scheme up to the first colon, and
formats nothing. -/
def fixedLib (tokens : List html.Token) : bluemonday.Lib :=
  { tokenize := fun _ => tokens
    matchString := fun _ _ => true
    parseURL := fun s =>
      if s.contains ':' then some ⟨s.takeWhile (fun c => c ≠ ':'), s⟩ else some ⟨[], s⟩
    Format := fun s => s }

/-! ## The file system, the remote wiki and the run (`main.go`, lines 20-150)

The effects of the program are made explicit: a function that touches the
file system takes the tree and returns the tree it leaves; the remote wiki and
`git` are an environment the functions read; what `main` does in order is
recorded as a trace of events. -/

/-- The errors the program can meet.  `joined` is the error of a pool whose
tasks failed (`p.Wait()` joins the errors of the tasks). -/
inductive Err where
  | transport (url : Str)
  | decode (url : Str)
  | notDir (path : Str)
  | isDir (path : Str)
  | noEnt (path : Str)
  | exec (args : List Str)
  | joined (errs : List Err)

namespace os

/-- What a path names. -/
inductive Node where
  | dir
  | file (contents : Str)
deriving DecidableEq

/-- A file tree: what each path names, if anything. -/
abbrev FS := Str → Option Node

/-- The empty output tree. -/
def emptyFS : FS := fun _ => none

/-- The tree with `path` naming `node`. -/
def FS.set (fs : FS) (path : Str) (node : Node) : FS :=
  fun q => if q = path then some node else fs q

/-- Whether the path names a file. -/
def FS.isFile (fs : FS) (path : Str) : Bool :=
  match fs path with
  | some (Node.file _) => true
  | _ => false

/-- The directory and the directories above it, the deepest first, up to but
without the root (or, of a relative path, the working directory and what lies
above it), which exist. -/
def ancestors (dir : Str) : List Str :=
  ((filepath.scan dir).elems.tails.filter fun es => es ≠ []).map fun es =>
    filepath.render (filepath.isRooted dir) ⟨(filepath.scan dir).dotdots, es⟩

/-- The recursion of Go's `os.MkdirAll` along a directory and its parents: a
path that is a directory already ends it with success, one that is a file
with `ENOTDIR`; otherwise the parent is made first and then the directory
itself. -/
def mkdirChain (fs : FS) : List Str → Except Err FS
  | [] => .ok fs
  | p :: parents =>
    match fs p with
    | some Node.dir => .ok fs
    | some (Node.file _) => .error (Err.notDir p)
    | none =>
      match mkdirChain fs parents with
      | .error e => .error e
      | .ok fs1 => .ok (fs1.set p Node.dir)

/-- Go `os.MkdirAll` on a clean path. -/
def MkdirAll (fs : FS) (dir : Str) : Except Err FS := mkdirChain fs (ancestors dir)

/-- Whether the directory exists. -/
def dirExists (fs : FS) (dir : Str) : Bool :=
  match ancestors dir with
  | [] => true
  | p :: _ =>
    match fs p with
    | some Node.dir => true
    | _ => false

/-- Go `os.WriteFile`: it fails on a directory (`EISDIR`) and where the parent
directory is missing; otherwise the file is created or truncated and holds
`data` afterwards.  Names the operating system refuses (an element longer than
255 bytes, a NUL byte), permissions and a full disk are not part of the
model. -/
def WriteFile (fs : FS) (path data : Str) : Except Err FS :=
  match fs path with
  | some Node.dir => .error (Err.isDir path)
  | _ =>
    if dirExists fs (filepath.Dir path) then .ok (fs.set path (Node.file data))
    else .error (Err.noEnt path)

end os

namespace http

/-- The body of a response as `json.NewDecoder(resp.Body).Decode(&payload)`
reads it: text that does not decode, or JSON that decodes to a payload. -/
inductive Body (α : Type) where
  | malformed
  | json (payload : α)

/-- An HTTP response: its status code and its body. -/
structure Response (α : Type) where
  StatusCode : Nat
  Body : Body α

end http

/-- What the program talks to: the listing endpoint (the outcome of the k-th
listing request, an error standing for a request that could not be made or
answered), the content endpoint by URL, `git` (whether a command run in a
directory exits with success), the clock, and the third-party code under the
sanitizer. -/
structure Env where
  listing : Nat → Except Err (http.Response ListContentResponse)
  content : Str → Except Err (http.Response FetchContentResponse)
  git : Str → List Str → Bool
  now : Str
  lib : bluemonday.Lib

/-- What `main` does, in order. -/
inductive Event where
  | list (url : Str)
  | handle (page : ListContentResponse)
  | git (dir : Str) (args : List Str)
deriving DecidableEq

/-- Whether the event is a listing request. -/
def Event.isList : Event → Bool
  | .list _ => true
  | _ => false

/-- Whether the event is a `git` command. -/
def Event.isGit : Event → Bool
  | .git _ _ => true
  | _ => false

/-- The state of a run: the output tree and the events so far. -/
structure World where
  fs : os.FS
  trace : List Event

/-- The suffix `fetchPageContents` appends to the self link. -/
def expandQuery : Str := "?expand=body.export_view".toList

/-- The function `listContent` (line 75): the request is made, and the body
of the response is decoded; the status code of the response is not read. -/
def listContent (env : Env) (url : Str) (w : World) :
    Except Err ListContentResponse × World :=
  let w1 : World := { w with trace := w.trace ++ [Event.list url] }
  match env.listing (w.trace.countP Event.isList) with
  | .error e => (.error e, w1)
  | .ok resp =>
    match resp.Body with
    | .malformed => (.error (Err.decode url), w1)
    | .json payload => (.ok payload, w1)

/-- The function `fetchPageContents` (line 130): a request to the self link
with `?expand=body.export_view`; the body is decoded and its export view
returned; the status code of the response is not read. -/
def fetchPageContents (env : Env) (result : ListResult) : Except Err Str :=
  match env.content (result.Links.Self ++ expandQuery) with
  | .error e => .error e
  | .ok resp =>
    match resp.Body with
    | .malformed => .error (Err.decode (result.Links.Self ++ expandQuery))
    | .json payload => .ok payload.Value

/-- The function `writePage` (line 118): the directory of the path is made
with `os.MkdirAll`, then the file is written with `os.WriteFile`. -/
def writePage (gitDir baseURL : Str) (result : ListResult) (contents : Str) (fs : os.FS) :
    Except Err Unit × os.FS :=
  let path := pagePath gitDir baseURL result
  match os.MkdirAll fs (filepath.Dir path) with
  | .error e => (.error e, fs)
  | .ok fs1 =>
    match os.WriteFile fs1 path contents with
    | .error e => (.error e, fs1)
    | .ok fs2 => (.ok (), fs2)

/-- The function `handlePage` (line 107): fetch, sanitize, write. -/
def handlePage (env : Env) (gitDir baseURL : Str) (result : ListResult) (fs : os.FS) :
    Except Err Unit × os.FS :=
  match fetchPageContents env result with
  | .error e => (.error e, fs)
  | .ok contents => writePage gitDir baseURL result (sanitizeHTML env.lib contents) fs

/-- The tasks of the pool of `handleListResponse`, one `handlePage` a result,
run to the end whatever the others return (the pool does not cancel), here
one after the other in the order of the results: the errors of the tasks that
failed and the tree left. -/
def runPages (env : Env) (gitDir baseURL : Str) : List ListResult → os.FS → List Err × os.FS
  | [], fs => ([], fs)
  | result :: rest, fs =>
    match handlePage env gitDir baseURL result fs with
    | (.error e, fs1) =>
      let (errs, fs2) := runPages env gitDir baseURL rest fs1
      (e :: errs, fs2)
    | (.ok _, fs1) => runPages env gitDir baseURL rest fs1

/-- The function `handleListResponse` (line 96): `p.Wait()` returns `nil` when
no task failed and the joined errors otherwise. -/
def handleListResponse (env : Env) (gitDir : Str) (listResponse : ListContentResponse)
    (w : World) : Except Err Unit × World :=
  match runPages env gitDir listResponse.Links.Base listResponse.Results w.fs with
  | ([], fs1) => (.ok (), ⟨fs1, w.trace ++ [Event.handle listResponse]⟩)
  | (e :: errs, fs1) =>
    (.error (Err.joined (e :: errs)), ⟨fs1, w.trace ++ [Event.handle listResponse]⟩)

/-- One `cmd.Run()` of `gitCommitAllAndPush`, with `cmd.Dir = gitDir`: the
command cannot be started when the directory does not exist (the change of
directory fails); otherwise `git` decides. -/
def runGit (env : Env) (gitDir : Str) (args : List Str) (w : World) :
    Except Err Unit × World :=
  (if os.dirExists w.fs gitDir then
      if env.git gitDir args then .ok () else .error (Err.exec args)
    else .error (Err.noEnt gitDir),
    { w with trace := w.trace ++ [Event.git gitDir args] })

/-- The arguments of `git add .`. -/
def addArgs : List Str := ["add".toList, ".".toList]

/-- The arguments of `git commit -m "wiki dump on <time.Now()>"`. -/
def commitArgs (now : Str) : List Str :=
  ["commit".toList, "-m".toList, "wiki dump on ".toList ++ now]

/-- The arguments of `git push origin main`. -/
def pushArgs : List Str := ["push".toList, "origin".toList, "main".toList]

/-- The function `gitCommitAllAndPush` (line 53): `git add .`, `git commit -m`
with the time in the message, `git push origin main`; the first command that
fails ends it. -/
def gitCommitAllAndPush (env : Env) (gitDir : Str) (w : World) : Except Err Unit × World :=
  match runGit env gitDir addArgs w with
  | (.error e, w1) => (.error e, w1)
  | (.ok _, w1) =>
    match runGit env gitDir (commitArgs env.now) w1 with
    | (.error e, w2) => (.error e, w2)
    | (.ok _, w2) => runGit env gitDir pushArgs w2

/-- The loop of `main` (lines 27-45), with fuel for its rounds: `none` when the
fuel runs out before the loop ends, otherwise the error that made `main`
panic, or success, and the state then. -/
def listLoop (env : Env) (gitDir base : Str) : Nat → Str → World →
    Option (Except Err Unit × World)
  | 0, _, _ => none
  | fuel + 1, next, w =>
    if next = [] then some (.ok (), w)
    else
      match listContent env (base ++ next) w with
      | (.error e, w1) => some (.error e, w1)
      | (.ok listResponse, w1) =>
        match handleListResponse env gitDir listResponse w1 with
        | (.error e, w2) => some (.error e, w2)
        | (.ok _, w2) => listLoop env gitDir base fuel listResponse.Links.Next w2

/-- The output directory of `main`. -/
def gitDir : Str := "/tmp/confluence_dump".toList

/-- The base URL of `main`. -/
def base : Str := "https://wiki.nci.nih.gov".toList

/-- The first cursor of `main`. -/
def firstNext : Str := "/rest/api/content?limit=25".toList

/-- The function `main` (line 20) from an output tree `fs`: the loop, then
`gitCommitAllAndPush`; an error (a panic in `main`) ends the run. -/
def main (env : Env) (fuel : Nat) (fs : os.FS) : Option (Except Err Unit × World) :=
  match listLoop env gitDir base fuel firstNext ⟨fs, []⟩ with
  | none => none
  | some (.error e, w) => some (.error e, w)
  | some (.ok _, w) => some (gitCommitAllAndPush env gitDir w)

/-! ## Vocabulary for the statements about a run -/

/-- The payload the k-th listing request decodes to, if it succeeds. -/
def decoded (env : Env) (k : Nat) : Option ListContentResponse :=
  match env.listing k with
  | .error _ => none
  | .ok resp =>
    match resp.Body with
    | .malformed => none
    | .json payload => some payload

/-- Whether every page pipeline of the listing pages succeeds when the pages
are handled in order from the tree `fs`. -/
def pagesSucceed (env : Env) (gitDir : Str) : List ListContentResponse → os.FS → Bool
  | [], _ => true
  | page :: rest, fs =>
    match runPages env gitDir page.Links.Base page.Results fs with
    | ([], fs1) => pagesSucceed env gitDir rest fs1
    | (_ :: _, _) => false

/-- The tree after the listing pages have been handled in order. -/
def fsAfter (env : Env) (gitDir : Str) : List ListContentResponse → os.FS → os.FS
  | [], fs => fs
  | page :: rest, fs =>
    fsAfter env gitDir rest (runPages env gitDir page.Links.Base page.Results fs).2

/-- The events of a walk over listing pages from the cursor `next`: a request
to `base + next`, the page handled, a request to `base` and the page's `next`,
and so on. -/
def walkTrace (base : Str) : Str → List ListContentResponse → List Event
  | _, [] => []
  | next, page :: rest =>
    Event.list (base ++ next) :: Event.handle page :: walkTrace base page.Links.Next rest

/-- The cursor after a walk over the pages. -/
def cursorAfter : Str → List ListContentResponse → Str
  | next, [] => next
  | _, page :: rest => cursorAfter page.Links.Next rest

/-- Whether each request of a walk over the pages is made with a cursor that
is not empty. -/
def cursorsLive : Str → List ListContentResponse → Bool
  | _, [] => true
  | next, page :: rest => next ≠ [] && cursorsLive page.Links.Next rest

/-- The URLs of the listing requests of a trace, in order. -/
def requests (trace : List Event) : List Str :=
  trace.filterMap fun
    | .list url => some url
    | _ => none

/-- The listing pages handled in a trace, in order. -/
def handled (trace : List Event) : List ListContentResponse :=
  trace.filterMap fun
    | .handle page => some page
    | _ => none

/-- A listing page with the given base, cursor and results. -/
def listingPage (base next : Str) (results : List ListResult) : ListContentResponse :=
  ⟨⟨base, [], next, []⟩, 25, results.length, 0, results⟩

/-- A mock wiki: the listing requests are answered by the given responses in
order (a request past the last one fails), every page has the content
`<p>hi</p>`, status 200 throughout, and `git` succeeds. -/
def mockEnv (pages : List ListContentResponse) : Env :=
  { listing := fun k =>
      match pages.get? k with
      | some page => .ok ⟨200, .json page⟩
      | none => .error (Err.transport [])
    content := fun _ => .ok ⟨200, .json ⟨"<p>hi</p>".toList⟩⟩
    git := fun _ _ => true
    now := []
    lib := fixedLib [html.startTag "p".toList [], html.text "hi".toList,
      html.endTag "p".toList] }

/-- A mock wiki that answers every request with the status 404 and a body
that decodes (an empty JSON object, read as a payload with every field empty). -/
def notFoundEnv : Env :=
  { listing := fun _ => .ok ⟨404, .json ⟨⟨[], [], [], []⟩, 0, 0, 0, []⟩⟩
    content := fun _ => .ok ⟨404, .json ⟨[]⟩⟩
    git := fun _ _ => true
    now := []
    lib := fixedLib [] }

/-- A mock wiki with one listing page whose content requests fail for the
self link `bad`. -/
def failingEnv (pages : List ListContentResponse) : Env :=
  { mockEnv pages with
    content := fun url =>
      if url = "bad".toList ++ expandQuery then .error (Err.transport url)
      else .ok ⟨200, .json ⟨"<p>hi</p>".toList⟩⟩ }

/-- Whether the result of a call is success. -/
def succeeded {α : Type} (r : Except Err α) : Bool :=
  match r with
  | .ok _ => true
  | .error _ => false

namespace os

/-- The files of the tree are exactly the listed paths, each listed once. -/
def holdsFiles (fs : FS) (paths : List Str) : Prop :=
  paths.Nodup ∧ ∀ q, fs.isFile q = true ↔ q ∈ paths

/-- Exactly `n` files exist in the tree. -/
def fileCount (fs : FS) (n : Nat) : Prop :=
  ∃ paths : List Str, paths.length = n ∧ holdsFiles fs paths

end os

/-- The status code of a response, if there is a response. -/
def statusOf {α : Type} (r : Except Err (http.Response α)) : Option Nat :=
  match r with
  | .ok resp => some resp.StatusCode
  | .error _ => none

/-- A listing page with two descriptors whose links, `/a` and `/a/`, differ. -/
def collidingPage : ListContentResponse :=
  listingPage base [] [descriptor "s1".toList "/a".toList, descriptor "s2".toList "/a/".toList]

/-- A listing page that points on to `/n2`. -/
def firstPage : ListContentResponse :=
  listingPage base "/n2".toList [descriptor "s1".toList "/a".toList]

/-- Two listing pages: the first points on to `/n2`, the second ends the
listing. -/
def twoPages : List ListContentResponse :=
  [firstPage, listingPage base [] [descriptor "s2".toList "/b".toList]]

/-- A listing page with two results; the content of the second, whose self
link is `bad`, cannot be fetched from `failingEnv`. -/
def badPage : ListContentResponse :=
  listingPage base "/n3".toList
    [descriptor "s3".toList "/c".toList, descriptor "bad".toList "/d".toList]

/-- A tree in which the page `/a` of the wiki has been written before. -/
def writtenFS : os.FS :=
  (os.emptyFS.set "/tmp/confluence_dump/wiki.nci.nih.gov".toList os.Node.dir).set
    "/tmp/confluence_dump/wiki.nci.nih.gov/a.html".toList (os.Node.file "old".toList)

/-- The attribute `href="http://x"`. -/
def hrefAttr : html.Attribute := ⟨"href".toList, "http://x".toList⟩

/-- The attributes an anchor can carry after the sanitizer: `href`, the four
global attributes, and the `rel` the sanitizer adds. -/
def anchorKeys : List Str :=
  ["href", "dir", "lang", "id", "title", "rel"].map String.toList

/-- The text `<a href="http://x" rel="nofollow">link</a>`. -/
def anchorOutput : Str :=
  "<a href=".toList ++ html.dquote :: "http://x".toList ++ html.dquote
    :: " rel=".toList ++ html.dquote :: "nofollow".toList ++ html.dquote
    :: ">link</a>".toList

/-- A tree in which the output directory of `main` exists and is empty. -/
def dumpDirFS : os.FS := os.emptyFS.set "/tmp/confluence_dump".toList os.Node.dir

/-- The text the sanitizer writes for one anchor element with the attributes
`attrs` left and the text `data` inside: the text alone when no attribute is
left, the element otherwise. -/
def anchorText (attrs : List html.Attribute) (data : Str) : Str :=
  if attrs = [] then html.EscapeString data
  else (html.startTag "a".toList attrs).String ++ html.EscapeString data
    ++ (html.endTag "a".toList).String

/-- The text `<a href="http://x" rel="nofollow">link</a>` with the line breaks
and the indentation of a formatter: the tag, the text and the end tag on a
line each. -/
def anchorFormatted : Str :=
  "<a href=".toList ++ html.dquote :: "http://x".toList ++ html.dquote
    :: " rel=".toList ++ html.dquote :: "nofollow".toList ++ html.dquote
    :: ">\n  link\n</a>".toList

/-- A stand-in for the third-party code that reads every input as the tokens
of `<a href="http://x" onclick="evil()">link</a>` and breaks the lines of the
sanitized anchor as a formatter does. -/
def lineBreakLib : bluemonday.Lib :=
  { fixedLib anchorTokens with
    Format := fun s => if s = anchorOutput then anchorFormatted else s }

/-- The text `href="http://x"`. -/
def hrefText : Str := "href=".toList ++ html.dquote :: "http://x".toList ++ [html.dquote]

/-- The text `rel="nofollow"`. -/
def relText : Str := "rel=".toList ++ html.dquote :: "nofollow".toList ++ [html.dquote]

/-! # Lemmas and theorems -/

namespace filepath

theorem splitSlash_ne_nil (s : Str) : splitSlash s ≠ [] := by
  induction s with
  | nil => simp [splitSlash]
  | cons c cs ih =>
    unfold splitSlash
    split_ifs
    · simp
    · cases h : splitSlash cs <;> simp

theorem splitSlash_cons_slash (s : Str) : splitSlash ('/' :: s) = [] :: splitSlash s := by
  simp [splitSlash]

theorem splitSlash_cons_other (c : Char) (s : Str) (hc : c ≠ '/') :
    ∃ e es, splitSlash s = e :: es ∧ splitSlash (c :: s) = (c :: e) :: es := by
  cases h : splitSlash s with
  | nil => exact absurd h (splitSlash_ne_nil s)
  | cons e es => exact ⟨e, es, rfl, by simp [splitSlash, hc, h]⟩

theorem splitSlash_append (a b : Str) :
    splitSlash (a ++ '/' :: b) = splitSlash a ++ splitSlash b := by
  induction a with
  | nil => simp [splitSlash]
  | cons c cs ih =>
    by_cases hc : c = '/'
    · subst hc
      simp [splitSlash_cons_slash, ih]
    · obtain ⟨e, es, h1, h2⟩ := splitSlash_cons_other c cs hc
      obtain ⟨e', es', h1', h2'⟩ := splitSlash_cons_other c (cs ++ '/' :: b) hc
      rw [List.cons_append, h2', h2]
      rw [ih, h1] at h1'
      simp only [List.cons_append, List.cons.injEq] at h1'
      obtain ⟨rfl, rfl⟩ := h1'
      simp

theorem joinSlash_splitSlash (s : Str) : joinSlash (splitSlash s) = s := by
  induction s with
  | nil => simp [splitSlash, joinSlash]
  | cons c cs ih =>
    by_cases hc : c = '/'
    · subst hc
      rw [splitSlash_cons_slash]
      cases h : splitSlash cs with
      | nil => exact absurd h (splitSlash_ne_nil cs)
      | cons e es => rw [h] at ih; simp [joinSlash, ih]
    · obtain ⟨e, es, h1, h2⟩ := splitSlash_cons_other c cs hc
      rw [h2]
      rw [h1] at ih
      cases es with
      | nil => simp [joinSlash] at ih ⊢; exact ih
      | cons e2 es2 => simp [joinSlash] at ih ⊢; exact ih

theorem splitSlash_noSlash (e : Str) (h : '/' ∉ e) : splitSlash e = [e] := by
  induction e with
  | nil => simp [splitSlash]
  | cons c cs ih =>
    have hc : c ≠ '/' := fun hh => h (by simp [hh])
    have hcs : '/' ∉ cs := fun hh => h (by simp [hh])
    simp [splitSlash, hc, ih hcs]

theorem noSlash_of_mem_splitSlash (s : Str) : ∀ e ∈ splitSlash s, '/' ∉ e := by
  induction s with
  | nil => simp [splitSlash]
  | cons c cs ih =>
    by_cases hc : c = '/'
    · subst hc
      rw [splitSlash_cons_slash]
      intro e he
      rcases List.mem_cons.1 he with rfl | he
      · simp
      · exact ih e he
    · obtain ⟨e, es, h1, h2⟩ := splitSlash_cons_other c cs hc
      rw [h2]
      rw [h1] at ih
      intro x hx
      rcases List.mem_cons.1 hx with rfl | hx
      · have := ih e (by simp)
        simp only [List.mem_cons, not_or]
        exact ⟨fun hh => hc hh.symm, this⟩
      · exact ih x (by simp [hx])

theorem splitSlash_joinSlash (es : List Str) (hne : es ≠ []) (h : ∀ e ∈ es, '/' ∉ e) :
    splitSlash (joinSlash es) = es := by
  induction es with
  | nil => exact absurd rfl hne
  | cons e rest ih =>
    cases rest with
    | nil => simpa [joinSlash] using splitSlash_noSlash e (h e (by simp))
    | cons e2 rest2 =>
      have h2 := ih (by simp) (fun x hx => h x (by simp [hx]))
      simp only [joinSlash] at h2 ⊢
      rw [splitSlash_append, splitSlash_noSlash e (h e (by simp))]
      simp [joinSlash, h2]

theorem joinSlash_append (a b : List Str) (ha : a ≠ []) (hb : b ≠ []) :
    joinSlash (a ++ b) = joinSlash a ++ '/' :: joinSlash b := by
  induction a with
  | nil => exact absurd rfl ha
  | cons e rest ih =>
    cases rest with
    | nil =>
      cases b with
      | nil => exact absurd rfl hb
      | cons b1 bs => simp [joinSlash]
    | cons e2 rest2 =>
      have h2 := ih (by simp)
      have hc : ∀ (x y : Str) (l : List Str),
          joinSlash (x :: y :: l) = x ++ '/' :: joinSlash (y :: l) := fun _ _ _ => rfl
      rw [List.cons_append, List.cons_append, hc, ← List.cons_append, h2, hc]
      simp


theorem isOrdinary_iff (e : Str) :
    isOrdinary e = true ↔ e ≠ [] ∧ e ≠ ['.'] ∧ e ≠ ['.', '.'] := by
  simp [isOrdinary, and_assoc]

theorem cleanStep_ordinary (r : Bool) (out : Lazybuf) (e : Str) (h : isOrdinary e = true) :
    cleanStep r out e = ⟨out.dotdots, e :: out.elems⟩ := by
  obtain ⟨h1, h2, h3⟩ := (isOrdinary_iff e).1 h
  simp [cleanStep, h1, h2, h3]

theorem cleanStep_skip (r : Bool) (out : Lazybuf) (e : Str) (h : isOrdinary e = false)
    (h2 : e ≠ ['.', '.']) : cleanStep r out e = out := by
  by_cases h1 : e = []
  · simp [cleanStep, h1]
  · by_cases h3 : e = ['.']
    · simp [cleanStep, h3]
    · have : isOrdinary e = true := (isOrdinary_iff e).2 ⟨h1, h3, h2⟩
      rw [this] at h
      exact absurd h (by simp)

theorem foldl_cleanStep_noDotDot (r : Bool) (es : List Str) :
    ∀ out : Lazybuf, (∀ e ∈ es, e ≠ ['.', '.']) →
      es.foldl (cleanStep r) out = ⟨out.dotdots, (es.filter isOrdinary).reverse ++ out.elems⟩ := by
  induction es with
  | nil => intro out _; simp
  | cons e rest ih =>
    intro out h
    have hrest : ∀ x ∈ rest, x ≠ ['.', '.'] := fun x hx => h x (by simp [hx])
    rw [List.foldl_cons, ih _ hrest]
    cases ho : isOrdinary e with
    | true => simp [cleanStep_ordinary r out e ho, List.filter_cons, ho]
    | false => simp [cleanStep_skip r out e ho (h e (by simp)), List.filter_cons, ho]

theorem filter_isOrdinary_of_plain (r : Str) (h : isPlain r = true) :
    (splitSlash r).filter isOrdinary = splitSlash r := by
  rw [List.filter_eq_self]
  simpa [isPlain] using h

theorem noDotDot_of_plain (r : Str) (h : isPlain r = true) :
    ∀ e ∈ splitSlash r, e ≠ ['.', '.'] := by
  intro e he
  have : isOrdinary e = true := by
    simp only [isPlain, List.all_eq_true] at h
    exact h e he
  exact ((isOrdinary_iff e).1 this).2.2

theorem isRooted_append (g t : Str) (hg : g ≠ []) : isRooted (g ++ t) = isRooted g := by
  cases g with
  | nil => exact absurd rfl hg
  | cons c cs => simp [isRooted]

theorem scan_append (g r : Str) (hg : g ≠ []) :
    scan (g ++ '/' :: r) = (splitSlash r).foldl (cleanStep (isRooted g)) (scan g) := by
  unfold scan
  rw [isRooted_append g _ hg, splitSlash_append, List.foldl_append]

theorem isRooted_of_plain (r : Str) (h : isPlain r = true) : isRooted r = false := by
  cases r with
  | nil => simp [isRooted]
  | cons c cs =>
    by_cases hc : c = '/'
    · subst hc
      simp [isPlain, splitSlash_cons_slash, isOrdinary] at h
    · simp [isRooted, hc]

theorem ne_nil_of_plain (r : Str) (h : isPlain r = true) : r ≠ [] := by
  rintro rfl
  simp [isPlain, splitSlash, isOrdinary] at h

theorem cleanAbs_facts (g : Str) (hg : isCleanAbs g = true) :
    g ≠ [] ∧ isRooted g = true ∧ g = '/' :: joinSlash (scan g).elems.reverse
      ∧ (scan g).elems ≠ [] := by
  simp only [isCleanAbs, Bool.and_eq_true, beq_iff_eq, bne_iff_ne] at hg
  obtain ⟨⟨hr, hc⟩, hroot⟩ := hg
  have hne : g ≠ [] := by
    rintro rfl
    simp [isRooted] at hr
  have hform : g = '/' :: joinSlash (scan g).elems.reverse := by
    have := hc
    simp only [Clean, hne, if_false, render, hr, if_true] at this
    exact this.symm
  refine ⟨hne, hr, hform, ?_⟩
  intro he
  rw [he] at hform
  exact hroot (by simpa [joinSlash] using hform)

/-- Below a clean absolute directory, a link without `..` elements and with at
least one ordinary element is joined to the directory, a separator, and the
link's ordinary elements. -/
theorem Join_cleanAbs (g r : Str) (hg : isCleanAbs g = true)
    (hr : ∀ e ∈ splitSlash r, e ≠ ['.', '.'])
    (hne : (splitSlash r).filter isOrdinary ≠ []) :
    Join g r = g ++ '/' :: joinSlash ((splitSlash r).filter isOrdinary) := by
  obtain ⟨hgne, hroot, hform, hel⟩ := cleanAbs_facts g hg
  have hne2 : g ++ '/' :: r ≠ [] := by simp
  simp only [Join, hgne, ne_eq, not_false_eq_true, if_true, Clean, hne2, if_false]
  rw [isRooted_append g _ hgne, hroot, scan_append g r hgne, hroot,
    foldl_cleanStep_noDotDot true _ _ hr]
  simp only [render, if_true, List.reverse_append, List.reverse_reverse]
  rw [joinSlash_append _ _ (by simpa using hel) hne]
  conv_rhs => rw [hform]
  simp

theorem Join_cleanAbs_plain (g r : Str) (hg : isCleanAbs g = true) (hr : isPlain r = true) :
    Join g r = g ++ '/' :: r := by
  have h1 := filter_isOrdinary_of_plain r hr
  rw [Join_cleanAbs g r hg (noDotDot_of_plain r hr) (by rw [h1]; exact splitSlash_ne_nil r),
    h1, joinSlash_splitSlash]

end filepath

namespace filepath

theorem isOrdinary_of_length (e : Str) (h : 3 ≤ e.length) : isOrdinary e = true := by
  rw [isOrdinary_iff]
  refine ⟨?_, ?_, ?_⟩ <;> rintro rfl <;> simp at h

theorem isPlain_joinSlash_append (t : Str) (ht : '/' ∉ t) (hlen : 3 ≤ t.length) (es : List Str)
    (hne : es ≠ []) (hns : ∀ e ∈ es, '/' ∉ e) (hord : ∀ e ∈ es, isOrdinary e = true) :
    isPlain (joinSlash es ++ t) = true := by
  induction es with
  | nil => exact absurd rfl hne
  | cons e rest ih =>
    cases rest with
    | nil =>
      have hn : '/' ∉ e ++ t := by
        simp only [List.mem_append, not_or]
        exact ⟨hns e (by simp), ht⟩
      have hl : 3 ≤ (e ++ t).length := by simp; omega
      simp [isPlain, joinSlash, splitSlash_noSlash _ hn, isOrdinary_of_length _ hl]
    | cons e2 rest2 =>
      have h2 := ih (by simp) (fun x hx => hns x (by simp [hx])) (fun x hx => hord x (by simp [hx]))
      have hc : joinSlash (e :: e2 :: rest2) ++ t = e ++ '/' :: (joinSlash (e2 :: rest2) ++ t) := by
        simp [joinSlash]
      rw [hc]
      simp only [isPlain, splitSlash_append, splitSlash_noSlash e (hns e (by simp)),
        List.all_append, List.all_cons, List.all_nil, Bool.and_true, Bool.and_eq_true]
      exact ⟨hord e (by simp), h2⟩

theorem cleanStep_noSlash (r : Bool) (out : Lazybuf) (e : Str) (he : '/' ∉ e)
    (hout : ∀ x ∈ out.elems, '/' ∉ x) : ∀ x ∈ (cleanStep r out e).elems, '/' ∉ x := by
  by_cases h1 : e = []
  · simpa [cleanStep, h1] using hout
  by_cases h2 : e = ['.']
  · simpa [cleanStep, h2] using hout
  by_cases h3 : e = ['.', '.']
  · cases ho : out.elems with
    | nil =>
      cases r <;> simp [cleanStep, h3, ho]
    | cons a rest =>
      intro x hx
      simp only [cleanStep, h3, ho] at hx
      simp at hx
      exact hout x (by rw [ho]; exact List.mem_cons_of_mem _ hx)
  · intro x hx
    simp only [cleanStep, h1, h2, h3, if_false] at hx
    rcases List.mem_cons.1 hx with rfl | hx
    · exact he
    · exact hout x hx

theorem foldl_cleanStep_noSlash (r : Bool) (es : List Str) :
    ∀ out : Lazybuf, (∀ e ∈ es, '/' ∉ e) → (∀ x ∈ out.elems, '/' ∉ x) →
      ∀ x ∈ (es.foldl (cleanStep r) out).elems, '/' ∉ x := by
  induction es with
  | nil => intro out _ h; simpa using h
  | cons e rest ih =>
    intro out hes hout
    rw [List.foldl_cons]
    exact ih _ (fun x hx => hes x (by simp [hx]))
      (cleanStep_noSlash r out e (hes e (by simp)) hout)

theorem scan_noSlash (g : Str) : ∀ x ∈ (scan g).elems, '/' ∉ x :=
  foldl_cleanStep_noSlash _ _ _ (noSlash_of_mem_splitSlash g) (by simp)

theorem render_inj (ρ : Bool) (d : Nat) (E A B : List Str) (hE : ∀ e ∈ E, '/' ∉ e)
    (hA : ∀ e ∈ A, '/' ∉ e) (hB : ∀ e ∈ B, '/' ∉ e) (hAne : A ≠ []) (hBne : B ≠ [])
    (h : render ρ ⟨d, A.reverse ++ E⟩ = render ρ ⟨d, B.reverse ++ E⟩) : A = B := by
  have key : ∀ P : List Str, (∀ e ∈ P, '/' ∉ e) →
      joinSlash (P ++ A) = joinSlash (P ++ B) → A = B := by
    intro P hP hj
    have h1 := splitSlash_joinSlash (P ++ A) (by simp [hAne])
      (fun e he => by rcases List.mem_append.1 he with h | h; exact hP e h; exact hA e h)
    have h2 := splitSlash_joinSlash (P ++ B) (by simp [hBne])
      (fun e he => by rcases List.mem_append.1 he with h | h; exact hP e h; exact hB e h)
    rw [hj, h2] at h1
    exact (List.append_cancel_left h1).symm
  cases ρ with
  | true =>
    simp only [render, if_true, List.reverse_append, List.reverse_reverse, List.cons.injEq,
      true_and] at h
    exact key E.reverse (fun e he => hE e (List.mem_reverse.1 he)) h
  | false =>
    have hA2 : List.replicate d ['.', '.'] ++ (E.reverse ++ A) ≠ [] := by simp [hAne]
    have hB2 : List.replicate d ['.', '.'] ++ (E.reverse ++ B) ≠ [] := by simp [hBne]
    simp only [render, Bool.false_eq_true, if_false, List.reverse_append,
      List.reverse_reverse, hA2, hB2] at h
    rw [← List.append_assoc, ← List.append_assoc] at h
    refine key (List.replicate d ['.', '.'] ++ E.reverse) ?_ h
    intro e he
    rcases List.mem_append.1 he with h1 | h1
    · rw [List.eq_of_mem_replicate h1]; simp
    · exact hE e (List.mem_reverse.1 h1)

theorem Clean_plain (r : Str) (hr : isPlain r = true) :
    Clean r = render false ⟨0, (splitSlash r).reverse ++ []⟩ := by
  simp only [Clean, ne_nil_of_plain r hr, if_false, isRooted_of_plain r hr, scan]
  rw [foldl_cleanStep_noDotDot false _ _ (noDotDot_of_plain r hr),
    filter_isOrdinary_of_plain r hr]

theorem Clean_join_plain (g r : Str) (hg : g ≠ []) (hr : isPlain r = true) :
    Clean (g ++ '/' :: r)
      = render (isRooted g) ⟨(scan g).dotdots, (splitSlash r).reverse ++ (scan g).elems⟩ := by
  have hne2 : g ++ '/' :: r ≠ [] := by simp
  simp only [Clean, hne2, if_false]
  rw [isRooted_append g _ hg, scan_append g r hg,
    foldl_cleanStep_noDotDot _ _ _ (noDotDot_of_plain r hr), filter_isOrdinary_of_plain r hr]

/-- Joining two plain links to one directory gives one path only when the
links are equal. -/
theorem Join_inj_plain (g r1 r2 : Str) (h1 : isPlain r1 = true) (h2 : isPlain r2 = true)
    (h : Join g r1 = Join g r2) : r1 = r2 := by
  have hs : splitSlash r1 = splitSlash r2 := by
    by_cases hg : g = []
    · subst hg
      simp only [Join, ne_eq, not_true_eq_false, if_false, ne_nil_of_plain r1 h1,
        ne_nil_of_plain r2 h2, not_false_eq_true, if_true] at h
      rw [Clean_plain r1 h1, Clean_plain r2 h2] at h
      exact render_inj false 0 [] _ _ (by simp) (noSlash_of_mem_splitSlash r1)
        (noSlash_of_mem_splitSlash r2) (splitSlash_ne_nil r1) (splitSlash_ne_nil r2) h
    · simp only [Join, ne_eq, hg, not_false_eq_true, if_true] at h
      rw [Clean_join_plain g r1 hg h1, Clean_join_plain g r2 hg h2] at h
      exact render_inj _ _ _ _ _ (scan_noSlash g) (noSlash_of_mem_splitSlash r1)
        (noSlash_of_mem_splitSlash r2) (splitSlash_ne_nil r1) (splitSlash_ne_nil r2) h
  rw [← joinSlash_splitSlash r1, ← joinSlash_splitSlash r2, hs]

end filepath

theorem TrimPrefix_append (base w pre : Str) (h : strings.HasPrefix base pre = true) :
    strings.TrimPrefix (base ++ w) pre = base.drop pre.length ++ w := by
  simp only [strings.HasPrefix, List.isPrefixOf_iff_prefix] at h
  obtain ⟨t, rfl⟩ := h
  have : strings.HasPrefix (pre ++ (t ++ w)) pre = true := by
    simp [strings.HasPrefix, List.isPrefixOf_iff_prefix]
  simp [strings.TrimPrefix, this, List.append_assoc]

namespace os

theorem FS.set_set (fs : FS) (p : Str) (n : Node) : (fs.set p n).set p n = fs.set p n := by
  funext q
  simp only [FS.set]
  split_ifs <;> rfl

theorem FS.set_same (fs : FS) (p : Str) (n : Node) (h : fs p = some n) : fs.set p n = fs := by
  funext q
  simp only [FS.set]
  split_ifs with hq
  · rw [hq, h]
  · rfl

theorem mkdirChain_head (fs fs1 : FS) (p : Str) (ps : List Str)
    (h : mkdirChain fs (p :: ps) = .ok fs1) : fs1 p = some Node.dir := by
  simp only [mkdirChain] at h
  cases hp : fs p with
  | none =>
    rw [hp] at h
    cases hm : mkdirChain fs ps with
    | error e => rw [hm] at h; simp at h
    | ok fs2 =>
      rw [hm] at h
      simp only [Except.ok.injEq] at h
      rw [← h]
      simp [FS.set]
  | some n =>
    rw [hp] at h
    cases n with
    | dir =>
      simp only [Except.ok.injEq] at h
      rw [← h, hp]
    | file c => simp at h

theorem mkdirChain_of_head (fs : FS) (p : Str) (ps : List Str) (h : fs p = some Node.dir) :
    mkdirChain fs (p :: ps) = .ok fs := by
  simp [mkdirChain, h]

theorem mkdirChain_idem (fs fs1 : FS) (ch : List Str) (h : mkdirChain fs ch = .ok fs1) :
    mkdirChain fs1 ch = .ok fs1 := by
  cases ch with
  | nil => rfl
  | cons p ps => exact mkdirChain_of_head fs1 p ps (mkdirChain_head fs fs1 p ps h)

theorem mkdirChain_isFile (ch : List Str) :
    ∀ fs fs1 : FS, mkdirChain fs ch = .ok fs1 → ∀ q, fs1.isFile q = fs.isFile q := by
  induction ch with
  | nil =>
    intro fs fs1 h q
    simp only [mkdirChain, Except.ok.injEq] at h
    rw [h]
  | cons p ps ih =>
    intro fs fs1 h q
    simp only [mkdirChain] at h
    cases hp : fs p with
    | none =>
      rw [hp] at h
      cases hm : mkdirChain fs ps with
      | error e => rw [hm] at h; simp at h
      | ok fs2 =>
        rw [hm] at h
        simp only [Except.ok.injEq] at h
        rw [← h]
        by_cases hq : q = p
        · subst hq
          simp [FS.isFile, FS.set, hp]
        · have := ih fs fs2 hm q
          simpa [FS.isFile, FS.set, hq] using this
    | some n =>
      rw [hp] at h
      cases n with
      | dir =>
        simp only [Except.ok.injEq] at h
        rw [h]
      | file c => simp at h

theorem dirExists_of_mkdirChain (fs fs1 : FS) (d : Str)
    (h : mkdirChain fs (ancestors d) = .ok fs1) : dirExists fs1 d = true := by
  unfold dirExists
  cases ha : ancestors d with
  | nil => rfl
  | cons p ps =>
    rw [ha] at h
    simp [mkdirChain_head fs fs1 p ps h]

theorem MkdirAll_of_dirExists (fs : FS) (d : Str) (h : dirExists fs d = true) :
    MkdirAll fs d = .ok fs := by
  unfold dirExists at h
  unfold MkdirAll
  cases ha : ancestors d with
  | nil => rfl
  | cons p ps =>
    rw [ha] at h
    cases hp : fs p with
    | none => simp [hp] at h
    | some n =>
      cases n with
      | dir => exact mkdirChain_of_head fs p ps hp
      | file c => simp [hp] at h

theorem WriteFile_ok (fs fs1 : FS) (path data : Str) (h : WriteFile fs path data = .ok fs1) :
    fs1 = fs.set path (Node.file data) ∧ fs path ≠ some Node.dir
      ∧ dirExists fs (filepath.Dir path) = true := by
  unfold WriteFile at h
  by_cases hd : fs path = some Node.dir
  · simp [hd] at h
  · have h2 : (if dirExists fs (filepath.Dir path) = true
        then Except.ok (fs.set path (Node.file data))
        else Except.error (Err.noEnt path)) = Except.ok fs1 := by
      cases hp : fs path with
      | none => simpa [hp] using h
      | some n =>
        cases n with
        | dir => exact absurd hp hd
        | file c => simpa [hp] using h
    by_cases he : dirExists fs (filepath.Dir path) = true
    · simp only [he, if_true, Except.ok.injEq] at h2
      exact ⟨h2.symm, hd, he⟩
    · simp [he] at h2

theorem WriteFile_of_file (fs : FS) (path data : Str) (hd : fs path ≠ some Node.dir)
    (he : dirExists fs (filepath.Dir path) = true) :
    WriteFile fs path data = .ok (fs.set path (Node.file data)) := by
  unfold WriteFile
  cases hp : fs path with
  | none => simp [he]
  | some n =>
    cases n with
    | dir => exact absurd hp hd
    | file c => simp [he]

theorem dirExists_set_file (fs : FS) (d path data : Str) (hd : fs path ≠ some Node.dir)
    (h : dirExists fs d = true) : dirExists (fs.set path (Node.file data)) d = true := by
  unfold dirExists at h ⊢
  cases ha : ancestors d with
  | nil => rfl
  | cons p ps =>
    rw [ha] at h
    simp only at h ⊢
    cases hp : fs p with
    | none => simp [hp] at h
    | some n =>
      cases n with
      | file c => simp [hp] at h
      | dir =>
        have hne : p ≠ path := by
          rintro rfl
          exact hd hp
        simp [FS.set, hne, hp]

end os

/-- What `writePage` returns, by the outcome of its two steps. -/
theorem writePage_cases (gitDir baseURL : Str) (result : ListResult) (contents : Str)
    (fs : os.FS) :
    (∃ e, os.MkdirAll fs (filepath.Dir (pagePath gitDir baseURL result)) = .error e
        ∧ writePage gitDir baseURL result contents fs = (.error e, fs))
    ∨ (∃ fs1 e, os.MkdirAll fs (filepath.Dir (pagePath gitDir baseURL result)) = .ok fs1
        ∧ os.WriteFile fs1 (pagePath gitDir baseURL result) contents = .error e
        ∧ writePage gitDir baseURL result contents fs = (.error e, fs1))
    ∨ (∃ fs1 fs2, os.MkdirAll fs (filepath.Dir (pagePath gitDir baseURL result)) = .ok fs1
        ∧ os.WriteFile fs1 (pagePath gitDir baseURL result) contents = .ok fs2
        ∧ writePage gitDir baseURL result contents fs = (.ok (), fs2)) := by
  unfold writePage
  cases hm : os.MkdirAll fs (filepath.Dir (pagePath gitDir baseURL result)) with
  | error e => exact Or.inl ⟨e, rfl, by simp [hm]⟩
  | ok fs1 =>
    cases hw : os.WriteFile fs1 (pagePath gitDir baseURL result) contents with
    | error e => exact Or.inr (Or.inl ⟨fs1, e, rfl, hw, by simp [hm, hw]⟩)
    | ok fs2 => exact Or.inr (Or.inr ⟨fs1, fs2, rfl, hw, by simp [hm, hw]⟩)

theorem writePage_idem (gitDir baseURL : Str) (result : ListResult) (contents : Str)
    (fs : os.FS) :
    writePage gitDir baseURL result contents (writePage gitDir baseURL result contents fs).2
      = writePage gitDir baseURL result contents fs := by
  rcases writePage_cases gitDir baseURL result contents fs with
    ⟨e, hm, hw⟩ | ⟨fs1, e, hm, hwf, hw⟩ | ⟨fs1, fs2, hm, hwf, hw⟩
  · rw [hw]
    exact hw
  · rw [hw]
    have hm1 : os.MkdirAll fs1 (filepath.Dir (pagePath gitDir baseURL result)) = .ok fs1 :=
      os.mkdirChain_idem fs fs1 _ hm
    simp only [writePage, hm1, hwf]
  · rw [hw]
    obtain ⟨hset, hnd, hex⟩ := os.WriteFile_ok fs1 fs2 _ _ hwf
    have hex2 : os.dirExists fs2 (filepath.Dir (pagePath gitDir baseURL result)) = true := by
      rw [hset]
      exact os.dirExists_set_file fs1 _ _ _ hnd hex
    have hfile : fs2 (pagePath gitDir baseURL result) = some (os.Node.file contents) := by
      rw [hset]
      simp [os.FS.set]
    have hm2 := os.MkdirAll_of_dirExists fs2 _ hex2
    have hw2 := os.WriteFile_of_file fs2 (pagePath gitDir baseURL result) contents
      (by rw [hfile]; simp) hex2
    rw [os.FS.set_same fs2 _ _ hfile] at hw2
    simp only [writePage, hm2, hw2]

theorem writePage_overwrite (gitDir baseURL : Str) (result : ListResult) (contents : Str)
    (fs : os.FS) (hd : fs (pagePath gitDir baseURL result) ≠ some os.Node.dir)
    (hex : os.dirExists fs (filepath.Dir (pagePath gitDir baseURL result)) = true) :
    writePage gitDir baseURL result contents fs
      = (.ok (), fs.set (pagePath gitDir baseURL result) (os.Node.file contents)) := by
  simp only [writePage, os.MkdirAll_of_dirExists fs _ hex, os.WriteFile_of_file fs _ _ hd hex]

theorem writePage_isFile (gitDir baseURL : Str) (result : ListResult) (contents : Str)
    (fs fs2 : os.FS) (h : writePage gitDir baseURL result contents fs = (.ok (), fs2)) :
    ∀ q, fs2.isFile q = (decide (q = pagePath gitDir baseURL result) || fs.isFile q) := by
  rcases writePage_cases gitDir baseURL result contents fs with
    ⟨e, hm, hw⟩ | ⟨fs1, e, hm, hwf, hw⟩ | ⟨fs1, fs3, hm, hwf, hw⟩
  · rw [hw] at h; simp at h
  · rw [hw] at h; simp at h
  · rw [hw] at h
    simp only [Prod.mk.injEq, true_and] at h
    subst h
    obtain ⟨hset, _, _⟩ := os.WriteFile_ok fs1 fs3 _ _ hwf
    intro q
    have h1 := os.mkdirChain_isFile _ fs fs1 hm q
    rw [hset]
    by_cases hq : q = pagePath gitDir baseURL result
    · simp [os.FS.isFile, os.FS.set, hq]
    · simpa [os.FS.isFile, os.FS.set, hq] using h1

theorem handlePage_ok (env : Env) (gitDir baseURL : Str) (result : ListResult) (fs fs2 : os.FS)
    (h : handlePage env gitDir baseURL result fs = (.ok (), fs2)) :
    ∃ contents, fetchPageContents env result = .ok contents
      ∧ writePage gitDir baseURL result (sanitizeHTML env.lib contents) fs = (.ok (), fs2) := by
  unfold handlePage at h
  cases hf : fetchPageContents env result with
  | error e => rw [hf] at h; simp at h
  | ok contents => rw [hf] at h; exact ⟨contents, rfl, h⟩

theorem handlePage_of_fetch_error (env : Env) (gitDir baseURL : Str) (result : ListResult)
    (fs : os.FS) (h : succeeded (fetchPageContents env result) = false) :
    ∃ e, handlePage env gitDir baseURL result fs = (.error e, fs) := by
  unfold handlePage
  cases hf : fetchPageContents env result with
  | error e => exact ⟨e, rfl⟩
  | ok contents => rw [hf] at h; simp [succeeded] at h

theorem runPages_cons_ok (env : Env) (gitDir baseURL : Str) (r : ListResult)
    (rest : List ListResult) (fs fs1 : os.FS)
    (h : handlePage env gitDir baseURL r fs = (.ok (), fs1)) :
    runPages env gitDir baseURL (r :: rest) fs = runPages env gitDir baseURL rest fs1 := by
  simp [runPages, h]

theorem runPages_cons_error (env : Env) (gitDir baseURL : Str) (r : ListResult)
    (rest : List ListResult) (fs fs1 : os.FS) (e : Err)
    (h : handlePage env gitDir baseURL r fs = (.error e, fs1)) :
    runPages env gitDir baseURL (r :: rest) fs
      = (e :: (runPages env gitDir baseURL rest fs1).1,
          (runPages env gitDir baseURL rest fs1).2) := by
  simp [runPages, h]

theorem handlePage_result (env : Env) (gitDir baseURL : Str) (r : ListResult) (fs : os.FS) :
    (∃ e fs1, handlePage env gitDir baseURL r fs = (.error e, fs1))
      ∨ (∃ fs1, handlePage env gitDir baseURL r fs = (.ok (), fs1)) := by
  cases h : handlePage env gitDir baseURL r fs with
  | mk res fs1 =>
    cases res with
    | error e => exact Or.inl ⟨e, fs1, rfl⟩
    | ok u => exact Or.inr ⟨fs1, rfl⟩

/-- After a batch in which no task failed, the files of the tree are those it
had and the files at the derived paths of the results. -/
theorem runPages_isFile (env : Env) (gitDir baseURL : Str) (rs : List ListResult) :
    ∀ fs fs1 : os.FS, runPages env gitDir baseURL rs fs = ([], fs1) →
      ∀ q, fs1.isFile q = (decide (q ∈ rs.map (pagePath gitDir baseURL)) || fs.isFile q) := by
  induction rs with
  | nil =>
    intro fs fs1 h q
    simp only [runPages, Prod.mk.injEq, true_and] at h
    simp [h]
  | cons r rest ih =>
    intro fs fs1 h q
    rcases handlePage_result env gitDir baseURL r fs with ⟨e, fs2, hp⟩ | ⟨fs2, hp⟩
    · rw [runPages_cons_error env gitDir baseURL r rest fs fs2 e hp] at h
      simp at h
    · rw [runPages_cons_ok env gitDir baseURL r rest fs fs2 hp] at h
      obtain ⟨contents, _, hw⟩ := handlePage_ok env gitDir baseURL r fs fs2 hp
      have h1 := writePage_isFile gitDir baseURL r _ fs fs2 hw q
      have h2 := ih fs2 fs1 h q
      rw [h2, h1]
      by_cases hq : q = pagePath gitDir baseURL r
      · simp [hq]
      · simp [hq]

/-- A batch with a result whose fetch fails has a task that failed. -/
theorem runPages_of_fetch_error (env : Env) (gitDir baseURL : Str) (rs : List ListResult)
    (h : ∃ r ∈ rs, succeeded (fetchPageContents env r) = false) :
    ∀ fs, (runPages env gitDir baseURL rs fs).1 ≠ [] := by
  induction rs with
  | nil => simp at h
  | cons r rest ih =>
    intro fs
    rcases handlePage_result env gitDir baseURL r fs with ⟨e, fs2, hp⟩ | ⟨fs2, hp⟩
    · rw [runPages_cons_error env gitDir baseURL r rest fs fs2 e hp]
      simp
    · rw [runPages_cons_ok env gitDir baseURL r rest fs fs2 hp]
      obtain ⟨r0, hr0, hfail⟩ := h
      rcases List.mem_cons.1 hr0 with rfl | hmem
      · obtain ⟨e, he⟩ := handlePage_of_fetch_error env gitDir baseURL r0 fs hfail
        rw [he] at hp
        simp at hp
      · exact ih ⟨r0, hmem, hfail⟩ fs2

theorem handleListResponse_ok (env : Env) (gitDir : Str) (lr : ListContentResponse) (w : World)
    (fs1 : os.FS) (h : runPages env gitDir lr.Links.Base lr.Results w.fs = ([], fs1)) :
    handleListResponse env gitDir lr w = (.ok (), ⟨fs1, w.trace ++ [Event.handle lr]⟩) := by
  simp [handleListResponse, h]

theorem handleListResponse_error (env : Env) (gitDir : Str) (lr : ListContentResponse)
    (w : World) (h : (runPages env gitDir lr.Links.Base lr.Results w.fs).1 ≠ []) :
    handleListResponse env gitDir lr w
      = (.error (Err.joined (runPages env gitDir lr.Links.Base lr.Results w.fs).1),
          ⟨(runPages env gitDir lr.Links.Base lr.Results w.fs).2,
            w.trace ++ [Event.handle lr]⟩) := by
  unfold handleListResponse
  cases hr : runPages env gitDir lr.Links.Base lr.Results w.fs with
  | mk errs fs1 =>
    cases errs with
    | nil => rw [hr] at h; simp at h
    | cons e rest => rfl

theorem handleListResponse_ok_inv (env : Env) (gitDir : Str) (lr : ListContentResponse)
    (w : World) (h : succeeded (handleListResponse env gitDir lr w).1 = true) :
    runPages env gitDir lr.Links.Base lr.Results w.fs
        = ([], (handleListResponse env gitDir lr w).2.fs)
      ∧ (handleListResponse env gitDir lr w).2.trace = w.trace ++ [Event.handle lr] := by
  unfold handleListResponse at h ⊢
  cases hr : runPages env gitDir lr.Links.Base lr.Results w.fs with
  | mk errs fs1 =>
    cases errs with
    | nil => simp
    | cons e rest => rw [hr] at h; simp [succeeded] at h

theorem listContent_ok (env : Env) (url : Str) (w : World) (page : ListContentResponse)
    (h : decoded env (w.trace.countP Event.isList) = some page) :
    listContent env url w = (.ok page, ⟨w.fs, w.trace ++ [Event.list url]⟩) := by
  unfold decoded at h
  unfold listContent
  cases hl : env.listing (w.trace.countP Event.isList) with
  | error e => rw [hl] at h; simp at h
  | ok resp =>
    rw [hl] at h
    obtain ⟨st, body⟩ := resp
    cases body with
    | malformed => simp at h
    | json payload =>
      simp only [Option.some.injEq] at h
      simp [h]

theorem pagesSucceed_cons (env : Env) (gitDir : Str) (page : ListContentResponse)
    (rest : List ListContentResponse) (fs : os.FS)
    (h : pagesSucceed env gitDir (page :: rest) fs = true) :
    ∃ fs1, runPages env gitDir page.Links.Base page.Results fs = ([], fs1)
      ∧ pagesSucceed env gitDir rest fs1 = true
      ∧ fsAfter env gitDir (page :: rest) fs = fsAfter env gitDir rest fs1 := by
  unfold pagesSucceed at h
  cases hr : runPages env gitDir page.Links.Base page.Results fs with
  | mk errs fs1 =>
    cases errs with
    | nil =>
      rw [hr] at h
      exact ⟨fs1, rfl, h, by simp [fsAfter, hr]⟩
    | cons e more => rw [hr] at h; simp at h

/-- The rounds of the loop over listing pages that are served, are requested
with a live cursor and are handled with success: the loop goes on after them
from the cursor, the tree and the trace they leave. -/
theorem listLoop_pages (env : Env) (gitDir base : Str) (pages : List ListContentResponse) :
    ∀ (w : World) (next : Str) (fuel : Nat),
      (∀ i (h : i < pages.length),
        decoded env (w.trace.countP Event.isList + i) = some (pages.get ⟨i, h⟩)) →
      cursorsLive next pages = true →
      pagesSucceed env gitDir pages w.fs = true →
      listLoop env gitDir base (pages.length + fuel) next w
        = listLoop env gitDir base fuel (cursorAfter next pages)
            ⟨fsAfter env gitDir pages w.fs, w.trace ++ walkTrace base next pages⟩ := by
  induction pages with
  | nil =>
    intro w next fuel _ _ _
    simp [cursorAfter, fsAfter, walkTrace]
  | cons page rest ih =>
    intro w next fuel hserve hlive hok
    simp only [cursorsLive, Bool.and_eq_true, decide_eq_true_eq] at hlive
    obtain ⟨hnext, hlive2⟩ := hlive
    obtain ⟨fs1, hrun, hok2, hfs⟩ := pagesSucceed_cons env gitDir page rest w.fs hok
    have h0 : decoded env (w.trace.countP Event.isList) = some page := by
      have := hserve 0 (by simp)
      simpa using this
    have hlc := listContent_ok env (base ++ next) w page h0
    have hh := handleListResponse_ok env gitDir page
      ⟨w.fs, w.trace ++ [Event.list (base ++ next)]⟩ fs1 hrun
    have hfuel : (page :: rest).length + fuel = (rest.length + fuel) + 1 := by
      simp only [List.length_cons]; omega
    rw [hfuel]
    simp only [listLoop, hnext, if_false, hlc, hh]
    have hcount : (w.trace ++ [Event.list (base ++ next)] ++ [Event.handle page]).countP
        Event.isList = w.trace.countP Event.isList + 1 := by
      simp [List.countP_append, Event.isList]
    rw [ih ⟨fs1, w.trace ++ [Event.list (base ++ next)] ++ [Event.handle page]⟩
      page.Links.Next fuel ?_ hlive2 hok2]
    · simp [cursorAfter, hfs, walkTrace]
    · intro i hi
      have := hserve (i + 1) (by simp only [List.length_cons]; omega)
      rw [hcount]
      simpa [Nat.add_assoc, Nat.add_comm 1 i] using this

theorem cursorsLive_iff (pages : List ListContentResponse) :
    ∀ next, cursorsLive next pages = true ↔
      (pages ≠ [] → next ≠ []) ∧ ∀ p ∈ pages.dropLast, p.Links.Next ≠ [] := by
  induction pages with
  | nil => intro next; simp [cursorsLive]
  | cons page rest ih =>
    intro next
    simp only [cursorsLive, Bool.and_eq_true, decide_eq_true_eq, ih, ne_eq,
      not_false_eq_true, forall_const, reduceCtorEq]
    cases rest with
    | nil => simp
    | cons p2 rest2 => simp [List.dropLast]

theorem cursorAfter_getLast (pages : List ListContentResponse) :
    ∀ next (h : pages ≠ []), cursorAfter next pages = (pages.getLast h).Links.Next := by
  induction pages with
  | nil => intro next h; exact absurd rfl h
  | cons page rest ih =>
    intro next h
    cases rest with
    | nil => simp [cursorAfter]
    | cons p2 rest2 =>
      have := ih page.Links.Next (by simp)
      simp only [cursorAfter] at this ⊢
      rw [this]
      simp

theorem requests_walkTrace (base : Str) (pages : List ListContentResponse) :
    ∀ next, pages ≠ [] → requests (walkTrace base next pages)
      = (base ++ next) :: pages.dropLast.map fun p => base ++ p.Links.Next := by
  induction pages with
  | nil => intro next h; exact absurd rfl h
  | cons page rest ih =>
    intro next _
    cases rest with
    | nil => simp [walkTrace, requests]
    | cons p2 rest2 =>
      have := ih page.Links.Next (by simp)
      simp only [walkTrace, requests, List.filterMap_cons, List.dropLast, List.map_cons] at this ⊢
      rw [this]

theorem handled_walkTrace (base : Str) (pages : List ListContentResponse) :
    ∀ next, handled (walkTrace base next pages) = pages := by
  induction pages with
  | nil => intro next; simp [walkTrace, handled]
  | cons page rest ih =>
    intro next
    have := ih page.Links.Next
    simp only [handled] at this
    simp [walkTrace, handled, this]

theorem walkTrace_noGit (base : Str) (pages : List ListContentResponse) :
    ∀ next, ∀ ev ∈ walkTrace base next pages, ev.isGit = false := by
  induction pages with
  | nil => intro next ev h; simp [walkTrace] at h
  | cons page rest ih =>
    intro next ev h
    simp only [walkTrace, List.mem_cons] at h
    rcases h with rfl | rfl | h
    · rfl
    · rfl
    · exact ih _ ev h

theorem walkTrace_append (base : Str) (pages : List ListContentResponse)
    (page : ListContentResponse) :
    ∀ next, walkTrace base next (pages ++ [page])
      = walkTrace base next pages
        ++ [Event.list (base ++ cursorAfter next pages), Event.handle page] := by
  induction pages with
  | nil => intro next; simp [walkTrace, cursorAfter]
  | cons p rest ih => intro next; simp [walkTrace, cursorAfter, ih]

theorem gitCommitAllAndPush_trace (env : Env) (gitDir : Str) (w : World) :
    ∃ evs, (gitCommitAllAndPush env gitDir w).2.trace = w.trace ++ evs
      ∧ evs ≠ [] ∧ (∀ ev ∈ evs, ev.isGit = true)
      ∧ (gitCommitAllAndPush env gitDir w).2.fs = w.fs := by
  unfold gitCommitAllAndPush runGit
  have hone : ∀ ev ∈ [Event.git gitDir addArgs], ev.isGit = true := by
    intro ev hev
    simp only [List.mem_singleton] at hev
    subst hev
    rfl
  by_cases hd : os.dirExists w.fs gitDir = true
  · by_cases h1 : env.git gitDir addArgs = true
    · by_cases h2 : env.git gitDir (commitArgs env.now) = true
      · refine ⟨[Event.git gitDir addArgs, Event.git gitDir (commitArgs env.now),
          Event.git gitDir pushArgs], ?_, by simp, ?_, ?_⟩
        · simp [hd, h1, h2]
        · intro ev hev
          simp only [List.mem_cons, List.mem_singleton, List.not_mem_nil, or_false] at hev
          rcases hev with rfl | rfl | rfl <;> rfl
        · simp [hd, h1, h2]
      · refine ⟨[Event.git gitDir addArgs, Event.git gitDir (commitArgs env.now)],
          ?_, by simp, ?_, ?_⟩
        · simp [hd, h1, h2]
        · intro ev hev
          simp only [List.mem_cons, List.mem_singleton, List.not_mem_nil, or_false] at hev
          rcases hev with rfl | rfl <;> rfl
        · simp [hd, h1, h2]
    · exact ⟨[Event.git gitDir addArgs], by simp [hd, h1], by simp, hone, by simp [hd, h1]⟩
  · exact ⟨[Event.git gitDir addArgs], by simp [hd], by simp, hone, by simp [hd]⟩

theorem listLoop_done (env : Env) (gitDir base : Str) (k : Nat) (w : World) :
    listLoop env gitDir base (k + 1) [] w = some (.ok (), w) := by
  simp [listLoop]

theorem listLoop_handle_error (env : Env) (gitDir base : Str) (k : Nat) (next : Str)
    (w w1 w2 : World) (page : ListContentResponse) (e : Err) (hnext : next ≠ [])
    (hlc : listContent env (base ++ next) w = (.ok page, w1))
    (hh : handleListResponse env gitDir page w1 = (.error e, w2)) :
    listLoop env gitDir base (k + 1) next w = some (.error e, w2) := by
  simp [listLoop, hnext, hlc, hh]

theorem main_of_loop_ok (env : Env) (fuel : Nat) (fs : os.FS) (w : World)
    (h : listLoop env gitDir base fuel firstNext ⟨fs, []⟩ = some (.ok (), w)) :
    main env fuel fs = some (gitCommitAllAndPush env gitDir w) := by
  simp [main, h]

theorem main_of_loop_error (env : Env) (fuel : Nat) (fs : os.FS) (w : World) (e : Err)
    (h : listLoop env gitDir base fuel firstNext ⟨fs, []⟩ = some (.error e, w)) :
    main env fuel fs = some (.error e, w) := by
  simp [main, h]

/-! ## Path derivation: claims C1, C2, C3 -/

/-- C1, as the specification states it, fails: at the output directory
`/tmp/confluence_dump`, the base `https://wiki.nci.nih.gov` and the link
`/display/X`, `writePage` writes to
`/tmp/confluence_dump/wiki.nci.nih.gov/display/X.html`, which is not the
concatenation `outputDir + strip(...) + ".html"` (no separator follows the
directory there); and at the link `/display//X/` the path is not even the
concatenation with a separator put in, the doubled and the trailing separator
being cleaned away. -/
theorem pagePath_ne_concatPath :
    pagePath "/tmp/confluence_dump".toList "https://wiki.nci.nih.gov".toList
        (descriptor [] "/display/X".toList)
      = "/tmp/confluence_dump/wiki.nci.nih.gov/display/X.html".toList
    ∧ pagePath "/tmp/confluence_dump".toList "https://wiki.nci.nih.gov".toList
        (descriptor [] "/display/X".toList)
      ≠ concatPath "/tmp/confluence_dump".toList "https://wiki.nci.nih.gov".toList
        (descriptor [] "/display/X".toList)
    ∧ pagePath "/tmp/confluence_dump".toList "https://wiki.nci.nih.gov".toList
        (descriptor [] "/display//X/".toList)
      ≠ "/tmp/confluence_dump".toList ++ '/' ::
          strippedLink "https://wiki.nci.nih.gov".toList (descriptor [] "/display//X/".toList)
          ++ htmlSuffix := by
  decide

/-- C1, amended: the path `writePage` writes to is
`filepath.Join(outputDir, strip("https://", baseURL + webuiLink)) + ".html"`;
when the output directory is a clean absolute path other than the root and the
stripped link consists of ordinary elements separated by single separators,
that is the output directory, one separator, the stripped link and the suffix
`.html`. -/
theorem pagePath_eq_of_plain (gitDir baseURL : Str) (result : ListResult)
    (hdir : filepath.isCleanAbs gitDir = true)
    (hlink : filepath.isPlain (strippedLink baseURL result) = true) :
    pagePath gitDir baseURL result
      = filepath.Join gitDir (strippedLink baseURL result) ++ htmlSuffix
    ∧ pagePath gitDir baseURL result
      = gitDir ++ '/' :: strippedLink baseURL result ++ htmlSuffix := by
  refine ⟨rfl, ?_⟩
  have h := filepath.Join_cleanAbs_plain gitDir (strippedLink baseURL result) hdir hlink
  simp only [pagePath, h]

/-- C1, witness: the amended statement at `/tmp/confluence_dump`,
`https://wiki.nci.nih.gov` and `/display/X`. -/
theorem pagePath_eq_of_plain_witness :
    pagePath "/tmp/confluence_dump".toList "https://wiki.nci.nih.gov".toList
        (descriptor [] "/display/X".toList)
      = "/tmp/confluence_dump".toList ++ '/' ::
          strippedLink "https://wiki.nci.nih.gov".toList (descriptor [] "/display/X".toList)
          ++ htmlSuffix :=
  (pagePath_eq_of_plain "/tmp/confluence_dump".toList "https://wiki.nci.nih.gov".toList
    (descriptor [] "/display/X".toList) (by decide) (by decide)).2

/-- C2, as stated, fails: the distinct links `/display/A` and `/display//A`
are written to one and the same file. -/
theorem pagePath_collision :
    (descriptor [] "/display/A".toList).Links.Webui
      ≠ (descriptor [] "/display//A".toList).Links.Webui
    ∧ pagePath "/tmp/confluence_dump".toList "https://wiki.nci.nih.gov".toList
        (descriptor [] "/display/A".toList)
      = pagePath "/tmp/confluence_dump".toList "https://wiki.nci.nih.gov".toList
        (descriptor [] "/display//A".toList) := by
  decide

/-- C2, amended: for a fixed output directory and a base URL that starts with
`https://`, two page descriptors with distinct web-UI links are written to
distinct paths provided both stripped links consist of ordinary elements
separated by single separators. -/
theorem pagePath_injective_of_plain (gitDir baseURL : Str) (r1 r2 : ListResult)
    (hbase : strings.HasPrefix baseURL httpsScheme = true)
    (h1 : filepath.isPlain (strippedLink baseURL r1) = true)
    (h2 : filepath.isPlain (strippedLink baseURL r2) = true)
    (hne : r1.Links.Webui ≠ r2.Links.Webui) :
    pagePath gitDir baseURL r1 ≠ pagePath gitDir baseURL r2 := by
  intro h
  have hj := List.append_cancel_right h
  have hr := filepath.Join_inj_plain gitDir _ _ h1 h2 hj
  simp only [strippedLink] at hr
  rw [TrimPrefix_append _ _ _ hbase, TrimPrefix_append _ _ _ hbase] at hr
  exact hne (List.append_cancel_left hr)

/-- C2, witness: `/display/A` and `/display/B` below
`https://wiki.nci.nih.gov`. -/
theorem pagePath_injective_of_plain_witness :
    pagePath "/tmp/confluence_dump".toList "https://wiki.nci.nih.gov".toList
        (descriptor [] "/display/A".toList)
      ≠ pagePath "/tmp/confluence_dump".toList "https://wiki.nci.nih.gov".toList
        (descriptor [] "/display/B".toList) :=
  pagePath_injective_of_plain "/tmp/confluence_dump".toList "https://wiki.nci.nih.gov".toList
    (descriptor [] "/display/A".toList) (descriptor [] "/display/B".toList)
    (by decide) (by decide) (by decide) (by decide)

/-- C3, as stated, fails: with the link `/../../../etc/passwd` the file
`writePage` creates is `/etc/passwd.html`, outside `/tmp/confluence_dump`; and
with an empty link below the base `https://` it is `/tmp/confluence_dump.html`,
beside the output directory, not inside it. -/
theorem pagePath_escapes :
    pagePath "/tmp/confluence_dump".toList "https://wiki.nci.nih.gov".toList
        (descriptor [] "/../../../etc/passwd".toList) = "/etc/passwd.html".toList
    ∧ filepath.liesInside "/tmp/confluence_dump".toList
        (pagePath "/tmp/confluence_dump".toList "https://wiki.nci.nih.gov".toList
          (descriptor [] "/../../../etc/passwd".toList)) = false
    ∧ pagePath "/tmp/confluence_dump".toList "https://".toList (descriptor [] [])
        = "/tmp/confluence_dump.html".toList := by
  decide

/-- C3, amended: when the output directory is a clean absolute path other than
the root and the stripped link has no `..` element and at least one ordinary
element, the file `writePage` creates lies inside the output directory: its
path is the directory, a separator, and ordinary elements only. -/
theorem pagePath_liesInside (gitDir baseURL : Str) (result : ListResult)
    (hdir : filepath.isCleanAbs gitDir = true)
    (hdd : filepath.hasDotDot (strippedLink baseURL result) = false)
    (hord : filepath.hasOrdinary (strippedLink baseURL result) = true) :
    filepath.liesInside gitDir (pagePath gitDir baseURL result) = true := by
  have hdd2 : ∀ e ∈ filepath.splitSlash (strippedLink baseURL result), e ≠ ['.', '.'] := by
    intro e he h
    subst h
    simp [filepath.hasDotDot] at hdd
    exact hdd he
  have hne : (filepath.splitSlash (strippedLink baseURL result)).filter filepath.isOrdinary
      ≠ [] := by
    simp only [filepath.hasOrdinary, List.any_eq_true] at hord
    obtain ⟨e, he, ho⟩ := hord
    exact List.ne_nil_of_mem (List.mem_filter.2 ⟨he, ho⟩)
  have hj := filepath.Join_cleanAbs gitDir _ hdir hdd2 hne
  have hpath : pagePath gitDir baseURL result
      = (gitDir ++ ['/']) ++ (filepath.joinSlash
          ((filepath.splitSlash (strippedLink baseURL result)).filter filepath.isOrdinary)
          ++ htmlSuffix) := by
    simp [pagePath, hj]
  have hplain := filepath.isPlain_joinSlash_append htmlSuffix (by decide) (by decide) _ hne
    (fun e he => filepath.noSlash_of_mem_splitSlash _ e (List.mem_filter.1 he).1)
    (fun e he => (List.mem_filter.1 he).2)
  have hlen : gitDir.length + 1 = (gitDir ++ ['/']).length := by simp
  rw [hpath]
  simp only [filepath.liesInside, Bool.and_eq_true, List.isPrefixOf_iff_prefix]
  refine ⟨List.prefix_append _ _, ?_⟩
  rw [hlen, List.drop_left]
  exact hplain

/-- C3, witness: the link `/display/./X/` below `https://wiki.nci.nih.gov`. -/
theorem pagePath_liesInside_witness :
    filepath.liesInside "/tmp/confluence_dump".toList
      (pagePath "/tmp/confluence_dump".toList "https://wiki.nci.nih.gov".toList
        (descriptor [] "/display/./X/".toList)) = true :=
  pagePath_liesInside "/tmp/confluence_dump".toList "https://wiki.nci.nih.gov".toList
    (descriptor [] "/display/./X/".toList) (by decide) (by decide) (by decide)

/-! ## The run: claims C4, C5, C6, C7, C10 -/

theorem countP_isList_walkTrace (base : Str) (pages : List ListContentResponse) :
    ∀ next, (walkTrace base next pages).countP Event.isList = pages.length := by
  induction pages with
  | nil => intro next; simp [walkTrace]
  | cons page rest ih =>
    intro next
    simp [walkTrace, List.countP_cons, Event.isList, ih]

theorem requests_walkTrace_length (base : Str) (pages : List ListContentResponse) :
    ∀ next, (requests (walkTrace base next pages)).length = pages.length := by
  induction pages with
  | nil => intro next; simp [walkTrace, requests]
  | cons page rest ih =>
    intro next
    have := ih page.Links.Next
    simp only [requests] at this
    simp [walkTrace, requests, this]

theorem firstNext_ne_nil : firstNext ≠ [] := by decide

/-- C4: when the listing requests are answered by the pages `pages` in order,
every page but the last carries a `next` link, the last carries none, and
every page pipeline succeeds, `main` (with fuel for more rounds than there are
pages) issues exactly as many listing requests as there are pages, the first
to `base + "/rest/api/content?limit=25"` and each later one to `base` and the
`next` of the page before, handles the pages once each in order, and only then
runs `gitCommitAllAndPush`. -/
theorem main_pagination (env : Env) (fs : os.FS) (pages : List ListContentResponse)
    (hne : pages ≠ [])
    (hserve : ∀ i (h : i < pages.length), decoded env i = some (pages.get ⟨i, h⟩))
    (hlive : ∀ p ∈ pages.dropLast, p.Links.Next ≠ [])
    (hlast : (pages.getLast hne).Links.Next = [])
    (hok : pagesSucceed env gitDir pages fs = true)
    (fuel : Nat) (hfuel : pages.length < fuel) :
    main env fuel fs
        = some (gitCommitAllAndPush env gitDir
            ⟨fsAfter env gitDir pages fs, walkTrace base firstNext pages⟩)
      ∧ requests (walkTrace base firstNext pages)
          = (base ++ firstNext) :: pages.dropLast.map (fun p => base ++ p.Links.Next)
      ∧ (requests (walkTrace base firstNext pages)).length = pages.length
      ∧ handled (walkTrace base firstNext pages) = pages
      ∧ ∃ evs, (gitCommitAllAndPush env gitDir
            ⟨fsAfter env gitDir pages fs, walkTrace base firstNext pages⟩).2.trace
          = walkTrace base firstNext pages ++ evs
        ∧ evs ≠ [] ∧ (∀ ev ∈ evs, ev.isGit = true)
        ∧ ∀ ev ∈ walkTrace base firstNext pages, ev.isGit = false := by
  refine ⟨?_, requests_walkTrace base pages firstNext hne,
    requests_walkTrace_length base pages firstNext, handled_walkTrace base pages firstNext, ?_⟩
  · obtain ⟨k, rfl⟩ : ∃ k, fuel = pages.length + (k + 1) := ⟨fuel - pages.length - 1, by omega⟩
    have hl : cursorsLive firstNext pages = true :=
      (cursorsLive_iff pages firstNext).2 ⟨fun _ => firstNext_ne_nil, hlive⟩
    have h := listLoop_pages env gitDir base pages ⟨fs, []⟩ firstNext (k + 1)
      (by intro i hi; simpa using hserve i hi) hl hok
    have hc : cursorAfter firstNext pages = [] := by
      rw [cursorAfter_getLast pages firstNext hne, hlast]
    simp only [List.nil_append, hc] at h
    rw [listLoop_done] at h
    exact main_of_loop_ok env _ fs _ h
  · obtain ⟨evs, h1, h2, h3, _⟩ := gitCommitAllAndPush_trace env gitDir
      ⟨fsAfter env gitDir pages fs, walkTrace base firstNext pages⟩
    exact ⟨evs, h1, h2, h3, walkTrace_noGit base pages firstNext⟩

/-- C4, witness: a mock wiki with two listing pages. -/
theorem main_pagination_witness :
    main (mockEnv twoPages) 3 os.emptyFS
        = some (gitCommitAllAndPush (mockEnv twoPages) gitDir
            ⟨fsAfter (mockEnv twoPages) gitDir twoPages os.emptyFS,
              walkTrace base firstNext twoPages⟩) :=
  (main_pagination (mockEnv twoPages) os.emptyFS twoPages (by decide)
    (by
      intro i h
      match i, h with
      | 0, _ => rfl
      | 1, _ => rfl)
    (by decide) (by decide) (by decide) 3 (by decide)).1

/-- C5: when a listing page reached by the run (the pages before it served in
order, each with a `next` link and handled with success) has a result whose
fetch fails, `handleListResponse` returns an error whatever the state, `main`
ends with that error, the listing request for this page is the last one, and
no `git` command is run. -/
theorem main_failFast (env : Env) (fs : os.FS) (pages : List ListContentResponse)
    (page : ListContentResponse)
    (hserve : ∀ i (h : i < (pages ++ [page]).length),
      decoded env i = some ((pages ++ [page]).get ⟨i, h⟩))
    (hlive : ∀ p ∈ pages, p.Links.Next ≠ [])
    (hok : pagesSucceed env gitDir pages fs = true)
    (hfail : ∃ r ∈ page.Results, succeeded (fetchPageContents env r) = false)
    (fuel : Nat) (hfuel : pages.length < fuel) :
    (∀ w, succeeded (handleListResponse env gitDir page w).1 = false)
      ∧ ∃ errs wf, errs ≠ []
        ∧ handleListResponse env gitDir page
            ⟨fsAfter env gitDir pages fs, walkTrace base firstNext pages
              ++ [Event.list (base ++ cursorAfter firstNext pages)]⟩
            = (.error (Err.joined errs), wf)
        ∧ main env fuel fs = some (.error (Err.joined errs), wf)
        ∧ wf.trace = walkTrace base firstNext (pages ++ [page])
        ∧ (requests wf.trace).length = pages.length + 1
        ∧ ∀ ev ∈ wf.trace, ev.isGit = false := by
  have herr := runPages_of_fetch_error env gitDir page.Links.Base page.Results hfail
  constructor
  · intro w
    rw [handleListResponse_error env gitDir page w (herr w.fs)]
    rfl
  · obtain ⟨k, rfl⟩ : ∃ k, fuel = pages.length + (k + 1) := ⟨fuel - pages.length - 1, by omega⟩
    have hl : cursorsLive firstNext pages = true :=
      (cursorsLive_iff pages firstNext).2
        ⟨fun _ => firstNext_ne_nil, fun p hp => hlive p (List.mem_of_mem_dropLast hp)⟩
    have hserve1 : ∀ i (h : i < pages.length), decoded env i = some (pages.get ⟨i, h⟩) := by
      intro i h
      have := hserve i (by simp; omega)
      simpa [List.getElem_append_left h] using this
    have hserve2 : decoded env pages.length = some page := by
      have := hserve pages.length (by simp)
      simpa using this
    have h := listLoop_pages env gitDir base pages ⟨fs, []⟩ firstNext (k + 1)
      (by intro i hi; simpa using hserve1 i hi) hl hok
    have hc : cursorAfter firstNext pages ≠ [] := by
      by_cases hp : pages = []
      · subst hp
        exact firstNext_ne_nil
      · rw [cursorAfter_getLast pages firstNext hp]
        exact hlive _ (List.getLast_mem hp)
    simp only [List.nil_append] at h
    have hlc := listContent_ok env (base ++ cursorAfter firstNext pages)
      ⟨fsAfter env gitDir pages fs, walkTrace base firstNext pages⟩ page
      (by simpa [countP_isList_walkTrace] using hserve2)
    have hh := handleListResponse_error env gitDir page
      ⟨fsAfter env gitDir pages fs, walkTrace base firstNext pages
        ++ [Event.list (base ++ cursorAfter firstNext pages)]⟩ (herr _)
    have htr : walkTrace base firstNext pages
        ++ [Event.list (base ++ cursorAfter firstNext pages)] ++ [Event.handle page]
        = walkTrace base firstNext (pages ++ [page]) := by
      simp [walkTrace_append]
    rw [listLoop_handle_error env gitDir base k _ _ _ _ page _ hc hlc hh] at h
    refine ⟨_, _, herr _, hh, main_of_loop_error env _ fs _ _ h, htr, ?_, ?_⟩
    · have := requests_walkTrace_length base (pages ++ [page]) firstNext
      rw [← htr] at this
      simpa using this
    · have := walkTrace_noGit base (pages ++ [page]) firstNext
      rw [← htr] at this
      exact this

/-- C5, witness: a mock wiki whose second listing page has a result that
cannot be fetched. -/
theorem main_failFast_witness :
    succeeded (handleListResponse (failingEnv [firstPage, badPage]) gitDir
      badPage ⟨os.emptyFS, []⟩).1 = false :=
  (main_failFast (failingEnv [firstPage, badPage]) os.emptyFS [firstPage] badPage
    (by
      intro i h
      match i, h with
      | 0, _ => rfl
      | 1, _ => rfl)
    (by decide) (by decide) ⟨descriptor "bad".toList "/d".toList, by decide, by decide⟩
    2 (by decide)).1 ⟨os.emptyFS, []⟩

/-- C6, as stated, fails: a listing response and a content response with the
status 404 and a body that decodes are returned by `listContent` and
`fetchPageContents` as success, and the run goes on to `gitCommitAllAndPush`:
where the output directory exists it commits and ends with success, and from
the empty tree it reaches the first `git` command, which cannot be started. -/
theorem status_not_checked :
    statusOf (notFoundEnv.listing 0) = some 404
    ∧ succeeded (listContent notFoundEnv (base ++ firstNext) ⟨os.emptyFS, []⟩).1 = true
    ∧ statusOf (notFoundEnv.content ("s".toList ++ expandQuery)) = some 404
    ∧ succeeded (fetchPageContents notFoundEnv (descriptor "s".toList "/a".toList)) = true
    ∧ (main notFoundEnv 2 dumpDirFS).map
        (fun r => (succeeded r.1, r.2.trace.any Event.isGit)) = some (true, true)
    ∧ (main notFoundEnv 2 os.emptyFS).map
        (fun r => (succeeded r.1, r.2.trace.any Event.isGit)) = some (false, true) := by
  decide

/-- C6, amended: `listContent` and `fetchPageContents` do not read the status
code.  Whatever the status, a response whose body decodes is returned as
success with the decoded payload, and a response whose body does not decode is
an error; so is a request that fails. -/
theorem status_not_read (env : Env) (url : Str) (w : World) (result : ListResult)
    (status : Nat) :
    (∀ payload, env.listing (w.trace.countP Event.isList) = .ok ⟨status, .json payload⟩ →
        (listContent env url w).1 = .ok payload)
    ∧ (env.listing (w.trace.countP Event.isList) = .ok ⟨status, .malformed⟩ →
        (listContent env url w).1 = .error (Err.decode url))
    ∧ (∀ e, env.listing (w.trace.countP Event.isList) = .error e →
        (listContent env url w).1 = .error e)
    ∧ (∀ payload, env.content (result.Links.Self ++ expandQuery) = .ok ⟨status, .json payload⟩ →
        fetchPageContents env result = .ok payload.Value)
    ∧ (env.content (result.Links.Self ++ expandQuery) = .ok ⟨status, .malformed⟩ →
        fetchPageContents env result = .error (Err.decode (result.Links.Self ++ expandQuery)))
    ∧ (∀ e, env.content (result.Links.Self ++ expandQuery) = .error e →
        fetchPageContents env result = .error e) := by
  refine ⟨?_, ?_, ?_, ?_, ?_, ?_⟩
  · intro payload h; simp [listContent, h]
  · intro h; simp [listContent, h]
  · intro e h; simp [listContent, h]
  · intro payload h; simp [fetchPageContents, h]
  · intro h; simp [fetchPageContents, h]
  · intro e h; simp [fetchPageContents, h]

/-- C6, witness: the status 404 with a body that decodes. -/
theorem status_not_read_witness :
    (listContent notFoundEnv (base ++ firstNext) ⟨os.emptyFS, []⟩).1
      = .ok ⟨⟨[], [], [], []⟩, 0, 0, 0, []⟩ :=
  (status_not_read notFoundEnv (base ++ firstNext) ⟨os.emptyFS, []⟩
    (descriptor "s".toList "/a".toList) 404).1 _ rfl

theorem holdsFiles_dedup (fs : os.FS) (paths : List Str)
    (h : ∀ q, fs.isFile q = true ↔ q ∈ paths) : os.holdsFiles fs paths.dedup :=
  ⟨List.nodup_dedup paths, fun q => by rw [h q, List.mem_dedup]⟩

theorem handleListResponse_isFile (env : Env) (gitDir : Str) (lr : ListContentResponse)
    (w : World) (hempty : ∀ q, w.fs q = none)
    (hok : succeeded (handleListResponse env gitDir lr w).1 = true) :
    ∀ q, (handleListResponse env gitDir lr w).2.fs.isFile q = true
      ↔ q ∈ lr.Results.map (pagePath gitDir lr.Links.Base) := by
  intro q
  obtain ⟨hrun, _⟩ := handleListResponse_ok_inv env gitDir lr w hok
  have h := runPages_isFile env gitDir lr.Links.Base lr.Results w.fs _ hrun q
  have h0 : w.fs.isFile q = false := by simp [os.FS.isFile, hempty q]
  rw [h, h0]
  simp

/-- C7, as stated, fails: a listing page with two descriptors, whose links
`/a` and `/a/` differ, is handled with success from an empty tree, and
afterwards one file exists, not two. -/
theorem fanOut_collision :
    succeeded (handleListResponse (mockEnv []) gitDir collidingPage ⟨os.emptyFS, []⟩).1 = true
    ∧ collidingPage.Results.length = 2
    ∧ ¬ os.fileCount (handleListResponse (mockEnv []) gitDir collidingPage
          ⟨os.emptyFS, []⟩).2.fs 2
    ∧ os.fileCount (handleListResponse (mockEnv []) gitDir collidingPage
          ⟨os.emptyFS, []⟩).2.fs 1 := by
  have hok : succeeded (handleListResponse (mockEnv []) gitDir collidingPage
      ⟨os.emptyFS, []⟩).1 = true := by decide
  have hfiles := handleListResponse_isFile (mockEnv []) gitDir collidingPage
    ⟨os.emptyFS, []⟩ (fun _ => rfl) hok
  have hmap : collidingPage.Results.map (pagePath gitDir collidingPage.Links.Base)
      = ["/tmp/confluence_dump/wiki.nci.nih.gov/a.html".toList,
         "/tmp/confluence_dump/wiki.nci.nih.gov/a.html".toList] := by decide
  rw [hmap] at hfiles
  refine ⟨hok, by decide, ?_, ?_⟩
  · rintro ⟨paths, hlen, hnodup, hmem⟩
    match paths, hlen, hnodup, hmem with
    | [a, b], _, hnodup, hmem =>
      have ha : a = "/tmp/confluence_dump/wiki.nci.nih.gov/a.html".toList := by
        have := (hfiles a).1 ((hmem a).2 (by simp))
        simpa using this
      have hb : b = "/tmp/confluence_dump/wiki.nci.nih.gov/a.html".toList := by
        have := (hfiles b).1 ((hmem b).2 (by simp))
        simpa using this
      rw [ha, hb] at hnodup
      simp at hnodup
  · refine ⟨["/tmp/confluence_dump/wiki.nci.nih.gov/a.html".toList], rfl, by simp, ?_⟩
    intro q
    rw [hfiles q]
    simp

/-- C7, amended: after `handleListResponse` has handled a listing page with
success from an empty tree, the files of the tree are exactly the files at the
derived paths of the page's descriptors, one file a distinct path; they are as
many as the descriptors when the derived paths are pairwise distinct; and no
listing request has been made meanwhile. -/
theorem handleListResponse_files (env : Env) (gitDir : Str) (lr : ListContentResponse)
    (w : World) (hempty : ∀ q, w.fs q = none)
    (hok : succeeded (handleListResponse env gitDir lr w).1 = true) :
    (∀ q, (handleListResponse env gitDir lr w).2.fs.isFile q = true
        ↔ q ∈ lr.Results.map (pagePath gitDir lr.Links.Base))
    ∧ os.fileCount (handleListResponse env gitDir lr w).2.fs
        (lr.Results.map (pagePath gitDir lr.Links.Base)).dedup.length
    ∧ ((lr.Results.map (pagePath gitDir lr.Links.Base)).Nodup →
        os.fileCount (handleListResponse env gitDir lr w).2.fs lr.Results.length)
    ∧ (handleListResponse env gitDir lr w).2.trace = w.trace ++ [Event.handle lr] := by
  have hfiles := handleListResponse_isFile env gitDir lr w hempty hok
  refine ⟨hfiles, ⟨_, rfl, holdsFiles_dedup _ _ hfiles⟩, ?_,
    (handleListResponse_ok_inv env gitDir lr w hok).2⟩
  intro hnodup
  exact ⟨_, by simp, hnodup, hfiles⟩

/-- C7, witness: a listing page with one descriptor, handled from the empty
tree. -/
theorem handleListResponse_files_witness :
    os.fileCount (handleListResponse (mockEnv []) gitDir firstPage ⟨os.emptyFS, []⟩).2.fs
      firstPage.Results.length :=
  (handleListResponse_files (mockEnv []) gitDir firstPage ⟨os.emptyFS, []⟩ (fun _ => rfl)
    (by decide)).2.2.1 (by decide)

/-- C10: running the page pipeline `handlePage` a second time, against the
same remote content, returns what the first run returned and leaves the tree
the first run left; and `writePage` on a tree in which the derived path is a
file and its directory exists succeeds and leaves the new contents in that
file. -/
theorem handlePage_rerun (env : Env) (gitDir baseURL : Str) (result : ListResult)
    (fs : os.FS) :
    handlePage env gitDir baseURL result (handlePage env gitDir baseURL result fs).2
        = handlePage env gitDir baseURL result fs
    ∧ (handlePage env gitDir baseURL result
          (handlePage env gitDir baseURL result fs).2).2
        = (handlePage env gitDir baseURL result fs).2
    ∧ ∀ old contents : Str,
        fs (pagePath gitDir baseURL result) = some (os.Node.file old) →
        os.dirExists fs (filepath.Dir (pagePath gitDir baseURL result)) = true →
        writePage gitDir baseURL result contents fs
          = (.ok (), fs.set (pagePath gitDir baseURL result) (os.Node.file contents)) := by
  have h1 : handlePage env gitDir baseURL result (handlePage env gitDir baseURL result fs).2
      = handlePage env gitDir baseURL result fs := by
    unfold handlePage
    cases hf : fetchPageContents env result with
    | error e => rfl
    | ok contents => exact writePage_idem gitDir baseURL result _ fs
  refine ⟨h1, by rw [h1], ?_⟩
  intro old contents hfile hdir
  exact writePage_overwrite gitDir baseURL result contents fs (by rw [hfile]; simp) hdir

/-- C10, witness: the page `/a` written over the file an earlier run left. -/
theorem handlePage_rerun_witness :
    writePage gitDir base (descriptor "s1".toList "/a".toList) "new".toList writtenFS
      = (.ok (), writtenFS.set (pagePath gitDir base (descriptor "s1".toList "/a".toList))
          (os.Node.file "new".toList)) :=
  (handlePage_rerun (mockEnv []) gitDir base (descriptor "s1".toList "/a".toList)
    writtenFS).2.2 "old".toList "new".toList (by decide) (by decide)

/-! ## The sanitizer: claims C8, C9 -/

theorem mem_of_Contains (s sub : Str) (h : strings.Contains s sub = true) :
    ∀ c ∈ sub, c ∈ s := by
  simp only [strings.Contains, List.any_eq_true, List.mem_tails, List.isPrefixOf_iff_prefix] at h
  obtain ⟨t, hts, hpre⟩ := h
  intro c hc
  exact hts.subset (hpre.subset hc)

theorem not_mem_of_nonSpace (s : Str) (c : Char) (hc : c.isWhitespace = false)
    (h : c ∉ strings.nonSpace s) : c ∉ s := by
  intro hmem
  exact h (List.mem_filter.2 ⟨hmem, by simp [hc]⟩)

/-- C8, as stated, fails: the policy of `main.go` does not allow the element
`p` (nor `script`); from the tokens of `<script>alert(1)</script><p>hi</p>`
the sanitizer keeps the text `hi` alone, whatever the third-party code, and
the output does not contain `<p>hi</p>`. -/
theorem sanitize_drops_paragraph_tag :
    policy.elements.contains "p".toList = false
    ∧ policy.elements.contains "script".toList = false
    ∧ (∀ lib, policy.sanitizeTokens lib scriptAndParagraphTokens = "hi".toList)
    ∧ sanitizeHTML (fixedLib scriptAndParagraphTokens) scriptAndParagraph = "hi".toList
    ∧ strings.Contains (sanitizeHTML (fixedLib scriptAndParagraphTokens) scriptAndParagraph)
        "<p>hi</p>".toList = false := by
  refine ⟨by decide, by decide, fun lib => rfl, by decide, by decide⟩

/-- C8, amended: on the input `<script>alert(1)</script><p>hi</p>`, read as
its six tokens, with a formatter that adds at most white space to the text
`hi`, the output of `sanitizeHTML` is the text `hi` up to white space: it
contains no tag at all, neither `<script>` nor `<p>hi</p>`. -/
theorem sanitizeHTML_script_paragraph (lib : bluemonday.Lib)
    (htok : lib.tokenize scriptAndParagraph = scriptAndParagraphTokens)
    (hfmt : strings.nonSpace (lib.Format "hi".toList) = "hi".toList) :
    policy.Sanitize lib scriptAndParagraph = "hi".toList
    ∧ sanitizeHTML lib scriptAndParagraph = lib.Format "hi".toList
    ∧ strings.nonSpace (sanitizeHTML lib scriptAndParagraph) = "hi".toList
    ∧ '<' ∉ sanitizeHTML lib scriptAndParagraph
    ∧ strings.Contains (sanitizeHTML lib scriptAndParagraph) "<script>".toList = false
    ∧ strings.Contains (sanitizeHTML lib scriptAndParagraph) "<p>hi</p>".toList = false := by
  have hblank : strings.isBlank scriptAndParagraph = false := by decide
  have hs : policy.Sanitize lib scriptAndParagraph = "hi".toList := by
    simp only [bluemonday.Policy.Sanitize, hblank, htok]
    rfl
  have hout : sanitizeHTML lib scriptAndParagraph = lib.Format "hi".toList := by
    simp only [sanitizeHTML, hs]
  have hns : strings.nonSpace (sanitizeHTML lib scriptAndParagraph) = "hi".toList := by
    rw [hout, hfmt]
  have hlt : '<' ∉ sanitizeHTML lib scriptAndParagraph :=
    not_mem_of_nonSpace _ _ (by decide) (by rw [hns]; decide)
  refine ⟨hs, hout, hns, hlt, ?_, ?_⟩
  · cases h : strings.Contains (sanitizeHTML lib scriptAndParagraph) "<script>".toList with
    | false => rfl
    | true => exact absurd (mem_of_Contains _ _ h '<' (by decide)) hlt
  · cases h : strings.Contains (sanitizeHTML lib scriptAndParagraph) "<p>hi</p>".toList with
    | false => rfl
    | true => exact absurd (mem_of_Contains _ _ h '<' (by decide)) hlt

/-- C8, witness: the stand-in library that hands out the six tokens and
returns the text `hi` as it is. -/
theorem sanitizeHTML_script_paragraph_witness :
    strings.nonSpace (sanitizeHTML (fixedLib scriptAndParagraphTokens) scriptAndParagraph)
      = "hi".toList :=
  (sanitizeHTML_script_paragraph (fixedLib scriptAndParagraphTokens) rfl rfl).2.2.1

theorem anchor_specific_keys :
    (policy.attrs.filter (fun t => t.1 = "a".toList)).map (fun t => t.2.1)
      = ["href".toList] := by
  decide

theorem global_keys :
    policy.globalAttrs.map (fun t => t.1)
      = ["dir", "lang", "id", "title"].map String.toList := by
  decide

theorem key_of_keepAttr (lib : bluemonday.Lib) (a : html.Attribute)
    (h : policy.keepAttr lib "a".toList a = true) :
    a.Key ∈ ["href", "dir", "lang", "id", "title"].map String.toList := by
  simp only [bluemonday.Policy.keepAttr, Bool.or_eq_true, bluemonday.passes,
    List.any_eq_true] at h
  rcases h with ⟨ap, hap, _⟩ | ⟨ap, hap, _⟩
  · simp only [bluemonday.Policy.attrPolicies, List.mem_map, List.mem_filter,
      decide_eq_true_eq] at hap
    obtain ⟨t, ⟨ht, h1, h2⟩, _⟩ := hap
    have : a.Key ∈ (policy.attrs.filter (fun t => t.1 = "a".toList)).map (fun t => t.2.1) :=
      List.mem_map.2 ⟨t, List.mem_filter.2 ⟨ht, by simpa using h1⟩, h2⟩
    rw [anchor_specific_keys] at this
    simp only [List.mem_singleton] at this
    rw [this]
    decide
  · simp only [bluemonday.Policy.globalPolicies, List.mem_map, List.mem_filter,
      decide_eq_true_eq] at hap
    obtain ⟨t, ⟨ht, h1⟩, _⟩ := hap
    have : a.Key ∈ policy.globalAttrs.map (fun t => t.1) :=
      List.mem_map.2 ⟨t, ht, h1⟩
    rw [global_keys] at this
    exact List.mem_cons_of_mem _ this

theorem key_of_checkURLs (lib : bluemonday.Lib) (el : Str) (c : List html.Attribute)
    (b : html.Attribute) (h : b ∈ policy.checkURLs lib el c) : ∃ a ∈ c, b.Key = a.Key := by
  unfold bluemonday.Policy.checkURLs at h
  cases hu : bluemonday.urlAttrOf el with
  | none =>
    rw [hu] at h
    exact ⟨b, h, rfl⟩
  | some k =>
    rw [hu] at h
    simp only [List.mem_filterMap] at h
    obtain ⟨a, ha, hb⟩ := h
    refine ⟨a, ha, ?_⟩
    by_cases hk : a.Key = k
    · simp only [hk, if_true] at hb
      cases hv : policy.validURL lib a.Val with
      | none => rw [hv] at hb; simp at hb
      | some u =>
        rw [hv] at hb
        simp only [Option.some.injEq] at hb
        rw [← hb, hk]
    · simp only [hk, if_false, Option.some.injEq] at hb
      rw [hb]

theorem addNoFollow_of_no_rel (c : List html.Attribute)
    (h : ∀ a ∈ c, a.Key ≠ "rel".toList) :
    bluemonday.addNoFollow c = c ++ [bluemonday.relAttr] := by
  have : c.any (fun a => decide (a.Key = "rel".toList)) = false := by
    rw [List.any_eq_false]
    intro a ha
    simpa using h a ha
  simp only [bluemonday.addNoFollow, this]
  simp

theorem step_startTag_kept (lib : bluemonday.Lib) (p : bluemonday.Policy)
    (st : bluemonday.State) (token : html.Token) (attr : List html.Attribute)
    (hty : token.Typ = html.TokenType.StartTagToken)
    (hss : bluemonday.isScriptOrStyle token.Data = false)
    (hel : token.Data ∈ p.elements)
    (hattr : p.sanitizeAttrs lib token.Data token.Attr = attr)
    (hne : token.Attr ≠ [] ∧ attr ≠ [])
    (hskip : st.skipElementContent = false) :
    p.step lib st token
      = { st with mostRecentlyStartedToken := token.Data,
                  buff := st.buff ++ ({ token with Attr := attr } : html.Token).String } := by
  obtain ⟨h1, h2⟩ := hne
  unfold bluemonday.Policy.step
  rw [hty]
  simp only [hss, hel, h1, hattr, h2, hskip]
  simp [if_neg h1, h2]

/-- What `sanitizeAttrs` leaves of the attributes of an anchor under the
policy of `main.go`: the attributes its first loop keeps, after the URL check,
and `rel="nofollow"` after them when an `href` is among them. -/
theorem sanitizeAttrs_anchor (lib : bluemonday.Lib) (attrs : List html.Attribute) :
    policy.sanitizeAttrs lib "a".toList attrs
      = if (policy.checkURLs lib "a".toList
            (attrs.filter (policy.keepAttr lib "a".toList))).any
            (fun a => a.Key = "href".toList)
        then policy.checkURLs lib "a".toList (attrs.filter (policy.keepAttr lib "a".toList))
          ++ [bluemonday.relAttr]
        else policy.checkURLs lib "a".toList (attrs.filter (policy.keepAttr lib "a".toList)) := by
  have hp : policy.requireParseableURLs = true := rfl
  have hn : policy.requireNoFollow = true := rfl
  have hnil : policy.checkURLs lib "a".toList [] = [] := by
    simp [bluemonday.Policy.checkURLs]
    cases bluemonday.urlAttrOf "a".toList <;> rfl
  have hel : "a".toList ∈ ["a", "area", "base", "link"].map String.toList := by decide
  have hkeys : ∀ b ∈ policy.checkURLs lib "a".toList
      (attrs.filter (policy.keepAttr lib "a".toList)), b.Key ≠ "rel".toList := by
    intro b hb
    obtain ⟨a, ha, hk⟩ := key_of_checkURLs lib _ _ b hb
    have := key_of_keepAttr lib a (List.mem_filter.1 ha).2
    rw [hk]
    intro hrel
    rw [hrel] at this
    revert this
    decide
  unfold bluemonday.Policy.sanitizeAttrs
  by_cases h1 : attrs = []
  · subst h1
    rw [if_pos rfl]
    simp only [List.filter_nil, hnil, List.any_nil, Bool.false_eq_true, if_false]
  · by_cases h2 : attrs.filter (policy.keepAttr lib "a".toList) = []
    · rw [if_neg h1]
      simp only [h2, if_true, hnil, List.any_nil, Bool.false_eq_true, if_false]
    · simp only [h1, h2, if_false, hp, hn, if_true, hel, true_and]
      by_cases h3 : (policy.checkURLs lib "a".toList
          (attrs.filter (policy.keepAttr lib "a".toList))).any
          (fun a => decide (a.Key = "href".toList)) = true
      · have h4 : policy.checkURLs lib "a".toList
            (attrs.filter (policy.keepAttr lib "a".toList)) ≠ [] := by
          intro h0
          rw [h0] at h3
          simp at h3
        rw [if_pos ⟨h4, h3⟩, if_pos h3, addNoFollow_of_no_rel _ hkeys]
      · rw [if_neg (fun h => h3 h.2), if_neg h3]

theorem sanitizeAttrs_anchorAttrs (lib : bluemonday.Lib) :
    policy.sanitizeAttrs lib "a".toList anchorAttrs
      = match policy.validURL lib "http://x".toList with
        | some u => [⟨"href".toList, u⟩, bluemonday.relAttr]
        | none => [] := by
  have hk1 : policy.keepAttr lib "a".toList ⟨"href".toList, "http://x".toList⟩ = true := rfl
  have hk2 : policy.keepAttr lib "a".toList ⟨"onclick".toList, "evil()".toList⟩ = false :=
    rfl
  have hf : anchorAttrs.filter (policy.keepAttr lib "a".toList)
      = [⟨"href".toList, "http://x".toList⟩] := by
    simp only [anchorAttrs, List.filter_cons, hk1, hk2, if_true, List.filter_nil]
    simp
  have hu : bluemonday.urlAttrOf "a".toList = some "href".toList := by decide
  rw [sanitizeAttrs_anchor, hf]
  simp only [bluemonday.Policy.checkURLs, hu, List.filterMap_cons, if_true, List.filterMap_nil]
  cases hv : policy.validURL lib "http://x".toList with
  | none => simp
  | some u => simp

theorem step_startTag_fresh (lib : bluemonday.Lib) (p : bluemonday.Policy)
    (name : Str) (attrs : List html.Attribute)
    (hss : bluemonday.isScriptOrStyle name = false) (hel : name ∈ p.elements)
    (hno : p.allowNoAttrs name = false) :
    p.step lib ⟨[], false, 0, false, [], []⟩ (html.startTag name attrs)
      = if p.sanitizeAttrs lib name attrs = [] then ⟨[], false, 0, true, [name], name⟩
        else ⟨(html.startTag name (p.sanitizeAttrs lib name attrs)).String, false, 0, false,
          [], name⟩ := by
  have hattr : (if attrs ≠ [] then p.sanitizeAttrs lib name attrs else attrs)
      = p.sanitizeAttrs lib name attrs := by
    by_cases h : attrs = []
    · subst h
      simp [bluemonday.Policy.sanitizeAttrs]
    · simp [h]
  unfold bluemonday.Policy.step
  simp only [html.startTag, hss, hel, hno, hattr]
  by_cases h : p.sanitizeAttrs lib name attrs = []
  · simp [h]
  · simp [h]

theorem step_text_plain (lib : bluemonday.Lib) (p : bluemonday.Policy) (buff data mrst : Str)
    (cnt : Int) (sct : Bool) (stack : List Str)
    (hm : bluemonday.isScriptOrStyle mrst = false) :
    p.step lib ⟨buff, false, cnt, sct, stack, mrst⟩ (html.text data)
      = ⟨buff ++ html.EscapeString data, false, cnt, sct, stack, mrst⟩ := by
  unfold bluemonday.Policy.step
  simp [html.text, hm, html.Token.String]

theorem step_endTag_written (lib : bluemonday.Lib) (p : bluemonday.Policy) (buff name : Str)
    (cnt : Int) (hss : bluemonday.isScriptOrStyle name = false) (hel : name ∈ p.elements) :
    p.step lib ⟨buff, false, cnt, false, [], name⟩ (html.endTag name)
      = ⟨buff ++ (html.endTag name).String, false, cnt, false, [], []⟩ := by
  unfold bluemonday.Policy.step
  simp [html.endTag, hss, hel]

theorem step_endTag_skipped (lib : bluemonday.Lib) (p : bluemonday.Policy) (buff name : Str)
    (cnt : Int) (hss : bluemonday.isScriptOrStyle name = false) :
    p.step lib ⟨buff, false, cnt, true, [name], name⟩ (html.endTag name)
      = ⟨buff, false, cnt, false, [], []⟩ := by
  unfold bluemonday.Policy.step
  simp [html.endTag, hss]

/-- What the sanitizing loop writes for one anchor element: the element with
the attributes `sanitizeAttrs` leaves, or its text alone when none is left. -/
theorem sanitizeTokens_anchor (lib : bluemonday.Lib) (attrs : List html.Attribute)
    (data : Str) :
    policy.sanitizeTokens lib
        [html.startTag "a".toList attrs, html.text data, html.endTag "a".toList]
      = anchorText (policy.sanitizeAttrs lib "a".toList attrs) data := by
  have hss : bluemonday.isScriptOrStyle "a".toList = false := by decide
  have hel : "a".toList ∈ policy.elements := by decide
  have hno : policy.allowNoAttrs "a".toList = false := by decide
  unfold bluemonday.Policy.sanitizeTokens anchorText
  rw [List.foldl_cons, step_startTag_fresh lib policy _ attrs hss hel hno]
  by_cases h : policy.sanitizeAttrs lib "a".toList attrs = []
  · rw [if_pos h, if_pos h, List.foldl_cons, step_text_plain lib policy _ _ _ _ _ _ hss,
      List.foldl_cons, step_endTag_skipped lib policy _ _ _ hss]
    rfl
  · rw [if_neg h, if_neg h, List.foldl_cons, step_text_plain lib policy _ _ _ _ _ _ hss,
      List.foldl_cons, step_endTag_written lib policy _ _ _ hss hel]
    rfl

theorem Contains_iff_within (s sub : Str) : strings.Contains s sub = true ↔ sub <:+: s := by
  simp only [strings.Contains, List.any_eq_true, List.mem_tails, List.isPrefixOf_iff_prefix]
  rw [List.infix_iff_prefix_suffix]
  constructor
  · rintro ⟨t, h1, h2⟩; exact ⟨t, h2, h1⟩
  · rintro ⟨t, h1, h2⟩; exact ⟨t, h2, h1⟩

theorem Contains_nonSpace (s sub : Str) (hsub : ∀ c ∈ sub, c.isWhitespace = false)
    (h : strings.Contains s sub = true) : strings.Contains (strings.nonSpace s) sub = true := by
  rw [Contains_iff_within] at h ⊢
  obtain ⟨a, b, rfl⟩ := h
  have hf : strings.nonSpace sub = sub := by
    unfold strings.nonSpace
    rw [List.filter_eq_self]
    intro c hc
    simp [hsub c hc]
  refine ⟨strings.nonSpace a, strings.nonSpace b, ?_⟩
  have : strings.nonSpace (a ++ sub ++ b)
      = strings.nonSpace a ++ strings.nonSpace sub ++ strings.nonSpace b := by
    simp [strings.nonSpace, List.filter_append]
  rw [this, hf]

theorem validURL_http (lib : bluemonday.Lib)
    (hurl : lib.parseURL "http://x".toList = some ⟨"http".toList, "http://x".toList⟩) :
    policy.validURL lib "http://x".toList = some "http://x".toList := by
  unfold bluemonday.Policy.validURL
  rw [hurl]
  rfl

/-- C9, as stated, fails: for `<a href="http://x" onclick="evil()">` the
anchor the sanitizer writes carries `rel="nofollow"` beside its `href`, and so
does the output of `sanitizeHTML`, with and without a formatter that breaks
the lines; and whatever the URL parser and the pattern matcher do, the
attributes left are never `href="http://x"` alone. -/
theorem anchor_carries_rel :
    policy.sanitizeAttrs (fixedLib []) "a".toList anchorAttrs = [hrefAttr, bluemonday.relAttr]
    ∧ policy.sanitizeTokens (fixedLib []) anchorTokens = anchorOutput
    ∧ sanitizeHTML (fixedLib anchorTokens) anchorInput = anchorOutput
    ∧ sanitizeHTML lineBreakLib anchorInput = anchorFormatted
    ∧ strings.Contains (sanitizeHTML lineBreakLib anchorInput) relText = true
    ∧ ¬ ∃ lib : bluemonday.Lib,
        hrefAttr ∈ policy.sanitizeAttrs lib "a".toList anchorAttrs
        ∧ ∀ a ∈ policy.sanitizeAttrs lib "a".toList anchorAttrs, a.Key = "href".toList := by
  refine ⟨by decide, by decide, by decide, by decide, by decide, ?_⟩
  rintro ⟨lib, hmem, hall⟩
  rw [sanitizeAttrs_anchorAttrs] at hmem hall
  cases hv : policy.validURL lib "http://x".toList with
  | none =>
    rw [hv] at hmem
    simp at hmem
  | some u =>
    rw [hv] at hall
    have := hall bluemonday.relAttr (by simp)
    revert this
    decide

/-- C9, amended: on an anchor `sanitizeHTML` keeps, of the attributes of the
input, at most `href` and the globally allowed `dir`, `lang`, `id` and
`title`; every other attribute, `onclick` included, is dropped; and an anchor
that keeps an `href` gets `rel="nofollow"` added.  For every anchor element,
the output of `sanitizeHTML` is the formatted text of the element with the
attributes so left (of its text alone when none is left).  For
`<a href="http://x" onclick="evil()">link</a>`, with a URL parser that reads
`http://x` as it stands and a formatter that adds at most white space, the
output is `<a href="http://x" rel="nofollow">link</a>` up to white space: it
keeps `href="http://x"`, carries `rel="nofollow"` and holds no `onclick`. -/
theorem anchor_attributes (lib : bluemonday.Lib) (input : Str) (attrs : List html.Attribute)
    (data : Str) :
    (∀ a ∈ policy.sanitizeAttrs lib "a".toList attrs, a.Key ∈ anchorKeys)
    ∧ (∀ a ∈ policy.sanitizeAttrs lib "a".toList attrs, a.Key ≠ "rel".toList →
        ∃ b ∈ attrs, b.Key = a.Key)
    ∧ ((∃ a ∈ policy.sanitizeAttrs lib "a".toList attrs, a.Key = "href".toList) →
        bluemonday.relAttr ∈ policy.sanitizeAttrs lib "a".toList attrs)
    ∧ (strings.isBlank input = false →
        lib.tokenize input
          = [html.startTag "a".toList attrs, html.text data, html.endTag "a".toList] →
        sanitizeHTML lib input
          = lib.Format (anchorText (policy.sanitizeAttrs lib "a".toList attrs) data))
    ∧ (lib.tokenize anchorInput = anchorTokens →
        lib.parseURL "http://x".toList = some ⟨"http".toList, "http://x".toList⟩ →
        strings.nonSpace (lib.Format anchorOutput) = strings.nonSpace anchorOutput →
        sanitizeHTML lib anchorInput = lib.Format anchorOutput
        ∧ strings.nonSpace (sanitizeHTML lib anchorInput) = strings.nonSpace anchorOutput
        ∧ strings.Contains (strings.nonSpace (sanitizeHTML lib anchorInput))
            (strings.nonSpace hrefText) = true
        ∧ strings.Contains (strings.nonSpace (sanitizeHTML lib anchorInput))
            (strings.nonSpace relText) = true
        ∧ strings.Contains (sanitizeHTML lib anchorInput) "onclick".toList = false) := by
  have hsub : ∀ a ∈ policy.checkURLs lib "a".toList
      (attrs.filter (policy.keepAttr lib "a".toList)),
      a.Key ∈ ["href", "dir", "lang", "id", "title"].map String.toList
        ∧ ∃ b ∈ attrs, b.Key = a.Key := by
    intro a ha
    obtain ⟨b, hb, hk⟩ := key_of_checkURLs lib _ _ a ha
    have := key_of_keepAttr lib b (List.mem_filter.1 hb).2
    exact ⟨by rw [hk]; exact this, b, (List.mem_filter.1 hb).1, hk.symm⟩
  have hrel : bluemonday.relAttr.Key = "rel".toList := rfl
  refine ⟨?_, ?_, ?_, ?_, ?_⟩
  · intro a ha
    rw [sanitizeAttrs_anchor] at ha
    have hin : ∀ k ∈ ["href", "dir", "lang", "id", "title"].map String.toList,
        k ∈ anchorKeys := by decide
    split_ifs at ha
    · rcases List.mem_append.1 ha with h | h
      · exact hin _ (hsub a h).1
      · simp only [List.mem_singleton] at h
        rw [h]
        decide
    · exact hin _ (hsub a ha).1
  · intro a ha hne
    rw [sanitizeAttrs_anchor] at ha
    split_ifs at ha
    · rcases List.mem_append.1 ha with h | h
      · exact (hsub a h).2
      · simp only [List.mem_singleton] at h
        rw [h] at hne
        exact absurd hrel hne
    · exact (hsub a ha).2
  · rintro ⟨a, ha, hk⟩
    rw [sanitizeAttrs_anchor] at ha ⊢
    split_ifs at ha ⊢ with hany
    · simp
    · exfalso
      apply hany
      rw [List.any_eq_true]
      exact ⟨a, ha, by simpa using hk⟩
  · intro hblank htok
    simp only [sanitizeHTML, bluemonday.Policy.Sanitize, hblank, htok]
    rw [sanitizeTokens_anchor]
    rfl
  · intro htok hurl hfmt
    have hattrs : policy.sanitizeAttrs lib "a".toList anchorAttrs
        = [hrefAttr, bluemonday.relAttr] := by
      rw [sanitizeAttrs_anchorAttrs, validURL_http lib hurl]
      rfl
    have hblank : strings.isBlank anchorInput = false := by decide
    have hout : sanitizeHTML lib anchorInput = lib.Format anchorOutput := by
      simp only [sanitizeHTML, bluemonday.Policy.Sanitize, hblank, htok]
      have := sanitizeTokens_anchor lib anchorAttrs "link".toList
      rw [hattrs] at this
      have h2 : policy.sanitizeTokens lib anchorTokens = anchorOutput := by
        rw [← show anchorText [hrefAttr, bluemonday.relAttr] "link".toList = anchorOutput
          from by decide]
        exact this
      simp only [h2, Bool.false_eq_true, if_false]
    have hns : strings.nonSpace (sanitizeHTML lib anchorInput)
        = strings.nonSpace anchorOutput := by
      rw [hout, hfmt]
    refine ⟨hout, hns, by rw [hns]; decide, by rw [hns]; decide, ?_⟩
    cases h : strings.Contains (sanitizeHTML lib anchorInput) "onclick".toList with
    | false => rfl
    | true =>
      have := Contains_nonSpace _ _ (by decide) h
      rw [hns] at this
      revert this
      decide

/-- C9, witness: the stand-in library that breaks the lines of the sanitized
anchor; the output is `<a href="http://x" rel="nofollow">link</a>` up to white
space. -/
theorem anchor_attributes_witness :
    strings.nonSpace (sanitizeHTML lineBreakLib anchorInput) = strings.nonSpace anchorOutput :=
  ((anchor_attributes lineBreakLib anchorInput anchorAttrs "link".toList).2.2.2.2
    rfl rfl (by decide)).2.1

end ScrapeConfluence
